import Mathlib

/-!
Verification of the SJZIP codec (repository IdeasCosmos/COSMOS_TGP).

This file gives a shallow embedding of the Python sources under `src/sjzip/`
and proves properties about the embedded definitions.

Modelling conventions, used throughout:

* A Python character is represented by its Unicode code point (`Nat`).
  A Python string is represented by the list of its code points
  (`List Nat`).  An entry of the Python `ALPHABET` tuple is itself a
  Python string, so alphabet entries are represented as `List Nat`;
  this matters because alphabet.py line 33 contains a `"""` token that
  Python parses as a triple-quoted string literal whose value is the
  two-character string of code points 44, 32 (comma, space), which
  therefore becomes an alphabet entry of length two.
* `bytes` values are represented as `List Nat` with every entry < 256.
* Python `raise` is modelled by `Except Err`; each `Err` constructor
  corresponds to one raise site of the source.
* The four IEEE-754 float coordinate fields (x, y, z, t) of `DotRecord`
  and the float spiral/quaternion computations are not modelled; none of
  the proved claims depends on their values.  Where the source merely
  *validates* a character before a float table lookup, the validation is
  kept.  The quaternion byte string produced by the float pipeline in
  `encode_chunk_optimized` is abstracted as a function parameter.
* Python `for` loops that may `raise` are modelled by the explicit
  short-circuiting recursions `mapME` / `foldlME` below.
-/

/-- Error values, one constructor per distinct raise site of the modelled
Python code (messages elided). -/
inductive Err where
  /-- codec.py: empty text rejected (`Text cannot be empty` or
      `Chunk text must be non-empty`). -/
  | emptyText
  /-- codec.py `encode_chunk`: `Chunk exceeds maximum size`. -/
  | chunkTooLong
  /-- alphabet.py `validate_text`: `Text exceeds maximum length`. -/
  | textTooLong
  /-- alphabet.py: `Unsupported character`. -/
  | unsupportedChar
  /-- alphabet.py `ensure_supported`: `Expected single character, got
      string of length n`. -/
  | notSingleChar
  /-- codec.py `_payload_from_indices`: `Invalid index`. -/
  | invalidIndex
  /-- codec.py `_payload_from_indices`: `Value overflow in payload
      encoding`. -/
  | overflow
  /-- codec.py: payload size exceeds `MAX_PAYLOAD_SIZE`. -/
  | payloadTooLarge
  /-- codec.py `_indices_from_payload`: `Payload cannot be empty`. -/
  | emptyPayload
  /-- codec.py `_indices_from_payload`: `Invalid length`. -/
  | invalidLength
  /-- codec.py `_indices_from_payload`: `Payload contained excess data
      beyond expected length`. -/
  | excessData
  /-- codec.py `decode_chunk`: `Invalid front_index`. -/
  | invalidFrontIndex
  /-- codec.py `decode_chunk`: `Decoded digit ... outside front order`. -/
  | digitOutsideFrontOrder
  /-- front_space.py `front_position`: character not found in the front
      ordering (dict KeyError turned into ValueError). -/
  | charNotInFront
  /-- dataclass `__post_init__` validation failure of a record field. -/
  | invalidRecordField
  /-- hilbert_optimizer.py: index or coordinate out of range. -/
  | outOfRange
deriving DecidableEq, Repr

/-- Short-circuiting map over a list in the `Except Err` monad; models a
Python `for` loop that appends to a result list and may raise. -/
def mapME {α β : Type} (f : α → Except Err β) : List α → Except Err (List β)
  | [] => .ok []
  | a :: t =>
    match f a with
    | .error e => .error e
    | .ok b =>
      match mapME f t with
      | .error e => .error e
      | .ok bs => .ok (b :: bs)

/-- Short-circuiting left fold in the `Except Err` monad; models a Python
accumulation loop that may raise. -/
def foldlME (f : Nat → Nat → Except Err Nat) : Nat → List Nat → Except Err Nat
  | a, [] => .ok a
  | a, d :: t =>
    match f a d with
    | .error e => .error e
    | .ok a' => foldlME f a' t

/-- The big-endian base-`b` digit string of length `n` of a natural number
(most significant digit first); digit `i` is `v / b^(n-1-i) % b`.  This is
the common shape of Python's `int.to_bytes(n, "big")` (`b = 256`) and of
the digit-extraction loop of `_indices_from_payload`
(`for pos in reversed(range(length)): indices[pos] = value % B; value //= B`). -/
def natToDigitsBE (b : Nat) : Nat → Nat → List Nat
  | 0, _ => []
  | n + 1, v => natToDigitsBE b n (v / b) ++ [v % b]

/-- Big-endian base-`b` value of a digit string; the common shape of
Python's `int.from_bytes(payload, "big")` (`b = 256`) and of the
accumulation `value = value * B + idx` of `_payload_from_indices`. -/
def natFromDigitsBE (b : Nat) (ds : List Nat) : Nat :=
  ds.foldl (fun v d => v * b + d) 0

/-- First-occurrence index of an element in a list; models looking up a
Python dict built by `{char: idx for idx, char in enumerate(seq)}` over a
duplicate-free `seq`. -/
def listIdx (a : List Nat) : List (List Nat) → Nat
  | [] => 0
  | b :: t => if b = a then 0 else listIdx a t + 1

/-- Append-if-absent fold; models the Python idiom
`for c in source: if c not in acc: acc.append(c)` used both by the
alphabet construction and by the front-order construction. -/
def dedupAppend (acc : List (List Nat)) (l : List (List Nat)) : List (List Nat) :=
  l.foldl (fun acc c => if c ∈ acc then acc else acc ++ [c]) acc

/-!
## AlphabetRegistry — src/sjzip/alphabet.py

The alphabet is built from printable ASCII 32..126 prefixed by NUL, the
Korean character list, and the extra character list, deduplicated in
order.  Entries are Python strings, modelled as lists of code points.
-/

/-- alphabet.py line 8: `_BASE_PRINTABLE = [chr(i) for i in range(32, 127)]`. -/
def BASE_PRINTABLE : List (List Nat) := (List.range 95).map (fun i => [32 + i])

/-- alphabet.py lines 11-25: `_KOREAN_CHARS`, transcribed entry by entry
as code points (duplicates included; deduplication happens below). -/
def KOREAN_CHARS : List (List Nat) := [[12593], [12596], [12599], [12601], [12609], [12610], [12613], [12615], [12616], [12618], [12619], [12620], [12621], [12622], [12623], [12624], [12625], [12626], [12627], [12628], [12629], [12630], [12631], [12635], [12636], [12640], [12641], [12643], [44032], [45208], [45796], [46972], [47560], [48148], [49324], [50500], [51088], [52264], [52852], [53440], [54028], [54616], [44256], [45432], [46020], [47196], [47784], [48372], [49548], [50724], [51312], [52488], [53076], [53664], [54252], [54840], [44396], [45572], [46160], [47336], [47924], [48512], [49688], [50864], [51452], [52628], [53216], [53804], [54392], [54980], [44536], [45716], [46300], [47476], [48064], [48652], [49828], [51004], [51592], [52768], [53356], [53944], [54532], [55120], [44592], [45768], [46356], [47532], [48120], [48708], [49884], [51060], [51648], [52824], [53412], [54000], [54588], [55176], [50504], [45397], [54616], [49464], [50836], [49845], [45768], [45796], [51077], [44163], [51008], [47484], [51032], [50640], [50752], [44284], [54624], [49688], [51080], [50632], [50688], [51012], [47484], [51060], [44032], [50640], [49436], [46020], [51648], [47564], [44620], [47484], [50948], [54644], [46104], [46108], [54620], [54633], [44057], [51020], [51076], [54632]]

/-- alphabet.py lines 28-34: `_EXTRA_CHARS`, transcribed entry by entry.
The two `[39]` entries are the two ASCII apostrophe string literals on
line 33, and `[44,32]` is the two-character string produced by the
`"""-delimited` literal on the same line (Python parses the five quote
characters there as one triple-quoted string whose value is comma-space). -/
def EXTRA_CHARS : List (List Nat) := [[13], [10], [9], [163], [226], [230], [232], [233], [338], [339], [951], [959], [963], [964], [962], [1008], [1493], [1495], [8212], [39], [39], [44,32], [8226], [8482]]

/-- alphabet.py lines 37-46: the alphabet produced by the deduplicating
build loop `for char in _BASE_PRINTABLE + _KOREAN_CHARS + _EXTRA_CHARS:
if char not in _seen: _ALPHABET.append(char)`, starting from `[chr(0)]`.
The `_seen` set always holds exactly the members of the accumulated
list, so the loop is the append-if-absent fold `dedupAppend`; the
literal below is proved equal to that fold by `alphabet_build`, and is
used as the definition so that kernel evaluation stays cheap. -/
def ALPHABET : List (List Nat) :=
  [[0], [32], [33], [34], [35], [36], [37], [38], [39], [40], [41], [42], [43], [44], [45], [46], [47], [48], [49], [50], [51], [52], [53], [54], [55], [56], [57], [58], [59], [60], [61], [62], [63], [64], [65], [66], [67], [68], [69], [70], [71], [72], [73], [74], [75], [76], [77], [78], [79], [80], [81], [82], [83], [84], [85], [86], [87], [88], [89], [90], [91], [92], [93], [94], [95], [96], [97], [98], [99], [100], [101], [102], [103], [104], [105], [106], [107], [108], [109], [110], [111], [112], [113], [114], [115], [116], [117], [118], [119], [120], [121], [122], [123], [124], [125], [126], [12593], [12596], [12599], [12601], [12609], [12610], [12613], [12615], [12616], [12618], [12619], [12620], [12621], [12622], [12623], [12624], [12625], [12626], [12627], [12628], [12629], [12630], [12631], [12635], [12636], [12640], [12641], [12643], [44032], [45208], [45796], [46972], [47560], [48148], [49324], [50500], [51088], [52264], [52852], [53440], [54028], [54616], [44256], [45432], [46020], [47196], [47784], [48372], [49548], [50724], [51312], [52488], [53076], [53664], [54252], [54840], [44396], [45572], [46160], [47336], [47924], [48512], [49688], [50864], [51452], [52628], [53216], [53804], [54392], [54980], [44536], [45716], [46300], [47476], [48064], [48652], [49828], [51004], [51592], [52768], [53356], [53944], [54532], [55120], [44592], [45768], [46356], [47532], [48120], [48708], [49884], [51060], [51648], [52824], [53412], [54000], [54588], [55176], [50504], [45397], [49464], [50836], [49845], [51077], [44163], [51008], [47484], [51032], [50640], [50752], [44284], [54624], [51080], [50632], [50688], [51012], [49436], [47564], [44620], [50948], [54644], [46104], [46108], [54620], [54633], [44057], [51020], [51076], [54632], [13], [10], [9], [163], [226], [230], [232], [233], [338], [339], [951], [959], [963], [964], [962], [1008], [1493], [1495], [8212], [44,32], [8226], [8482]]

/-- alphabet.py line 47: `ALPHABET_SIZE = len(ALPHABET)`. -/
def ALPHABET_SIZE : Nat := ALPHABET.length

/-- alphabet.py lines 53-73, `ensure_supported`: a value is accepted iff
it is a string of length exactly 1 that is a member of
`SUPPORTED_CHARS = frozenset(ALPHABET)` (the `isinstance` check cannot
fail in our typed model). -/
def ensure_supported_e (s : List Nat) : Except Err Unit :=
  if s.length ≠ 1 then .error .notSingleChar
  else if s ∈ ALPHABET then .ok () else .error .unsupportedChar

/-- alphabet.py lines 76-100, `validate_text`: reject over-long text,
then reject at the first character outside the alphabet.  For the
error/success behaviour the first-offender scan is equivalent to an
all-members check; single characters are length-1 strings, hence the
`[c]` membership test. -/
def validate_text_e (text : List Nat) (maxLength : Nat) : Except Err Unit :=
  if text.length > maxLength then .error .textTooLong
  else if text.all (fun c => [c] ∈ ALPHABET) then .ok () else .error .unsupportedChar

/-!
## FrontOrder — src/sjzip/front_space.py
-/

/-- front_space.py lines 22-35: the `_FRONT_ORDERS[front]` table.  The
build loop starts with `order = []`, appends `front` (always absent),
appends `'A'` when `front != 'A'` (and `'A' not in [front]`, which is
the same condition), then appends every not-yet-present alphabet entry
in order — the `dedupAppend` fold. -/
def front_order_table (front : List Nat) : List (List Nat) :=
  dedupAppend ([front] ++ (if front = [65] then [] else [[65]])) ALPHABET

/-- front_space.py lines 38-56, the `front_order` accessor:
`ensure_supported(front)` then the table lookup (which cannot miss,
since `_FRONT_ORDERS` has a key for every alphabet entry and
`ensure_supported` admits only alphabet entries). -/
def front_order_e (front : List Nat) : Except Err (List (List Nat)) :=
  match ensure_supported_e front with
  | .error e => .error e
  | .ok _ => .ok (front_order_table front)

/-- front_space.py lines 59-81, `front_position`: validate both
characters, then look `char` up in `_FRONT_POSITIONS[front]`.  That dict
maps each entry of the (duplicate-free) order to its position, i.e. to
its first index `listIdx`; a missing key raises. -/
def front_position_e (front char : List Nat) : Except Err Nat :=
  match ensure_supported_e front with
  | .error e => .error e
  | .ok _ =>
    match ensure_supported_e char with
    | .error e => .error e
    | .ok _ =>
      if char ∈ front_order_table front then
        .ok (listIdx char (front_order_table front))
      else .error .charNotInFront

/-!
## MixedRadixCodec and RecordFormat — src/sjzip/codec.py
-/

/-- codec.py line 16. -/
def CHUNK_SIZE : Nat := 500

/-- codec.py line 17: `100 * 1024 * 1024`. -/
def MAX_FILE_SIZE : Nat := 100 * 1024 * 1024

/-- codec.py line 18: `10 * 1024 * 1024`. -/
def MAX_PAYLOAD_SIZE : Nat := 10 * 1024 * 1024

/-- codec.py line 20: `_BASE = ALPHABET_SIZE`. -/
def BASE : Nat := ALPHABET_SIZE

/-- codec.py line 169: `max_safe_value = 2 ** (MAX_PAYLOAD_SIZE * 8)`.
Written as `(2 ^ 8) ^ MAX_PAYLOAD_SIZE` (equal by `max_safe_value_eq`)
because the kernel evaluates powers only up to exponent `2 ^ 24`. -/
def max_safe_value : Nat := (2 ^ 8) ^ MAX_PAYLOAD_SIZE

/-- codec.py lines 146-185, `SJZIPCodec._payload_from_indices`:
validate every index against `_BASE`, accumulate
`value = value * _BASE + idx` with the overflow guard, then serialize:
zero becomes the single zero byte, otherwise
`value.to_bytes((value.bit_length() + 7) // 8, "big")`.
Python's `bit_length` of a positive integer is `Nat.log2 + 1`. -/
def payload_from_indices (indices : List Nat) : Except Err (List Nat) :=
  if indices.any (fun idx => BASE ≤ idx) then .error .invalidIndex
  else
    match foldlME (fun value idx =>
        if value * BASE + idx > max_safe_value then .error .overflow
        else .ok (value * BASE + idx)) 0 indices with
    | .error e => .error e
    | .ok value =>
      if value = 0 then .ok [0]
      else
        if (Nat.log2 value + 1 + 7) / 8 > MAX_PAYLOAD_SIZE then .error .payloadTooLarge
        else .ok (natToDigitsBE 256 ((Nat.log2 value + 1 + 7) / 8) value)

/-- codec.py lines 187-219, `SJZIPCodec._indices_from_payload`: reject an
empty payload, a length outside `[1, CHUNK_SIZE]` (negative lengths do
not exist for `Nat`), or an over-long payload; then read the payload as
a big-endian integer and extract `length` base-`_BASE` digits
least-significant first into the positions `length-1 .. 0`
(equivalently: the big-endian digit string `natToDigitsBE`), failing if
a nonzero quotient remains after `length` divisions. -/
def indices_from_payload (payload : List Nat) (length : Nat) : Except Err (List Nat) :=
  if payload = [] then .error .emptyPayload
  else if length = 0 ∨ length > CHUNK_SIZE then .error .invalidLength
  else if payload.length > MAX_PAYLOAD_SIZE then .error .payloadTooLarge
  else
    if natFromDigitsBE 256 payload / BASE ^ length ≠ 0 then .error .excessData
    else .ok (natToDigitsBE BASE length (natFromDigitsBE 256 payload))

/-- codec.py lines 26-47, `DotRecord`, without the four float coordinate
fields (see the module docstring). -/
structure DotRecord where
  front_index : Nat
  length : Nat
  payload : List Nat
deriving DecidableEq, Repr

/-- codec.py lines 38-47, `DotRecord.__post_init__`: the non-float
validations performed when a record is constructed. -/
def mkDotRecord (front_index length : Nat) (payload : List Nat) : Except Err DotRecord :=
  if front_index ≥ ALPHABET_SIZE then .error .invalidRecordField
  else if length = 0 ∨ length > CHUNK_SIZE then .error .invalidRecordField
  else if payload.length > MAX_PAYLOAD_SIZE then .error .invalidRecordField
  else .ok ⟨front_index, length, payload⟩

/-- codec.py lines 118-144, `SJZIPCodec._digits_from_text`: reject empty
text, `validate_text(text, CHUNK_SIZE)`, call `front_order(front_char)`
(its value `order_map` is unused but the call may raise), then for each
character `ensure_supported` and `front_position`. -/
def digits_from_text (front_char : List Nat) (text : List Nat) : Except Err (List Nat) :=
  if text = [] then .error .emptyText
  else
    match validate_text_e text CHUNK_SIZE with
    | .error e => .error e
    | .ok _ =>
      match front_order_e front_char with
      | .error e => .error e
      | .ok _ =>
        mapME (fun c =>
          match ensure_supported_e [c] with
          | .error e => .error e
          | .ok _ => front_position_e front_char [c]) text

/-- mapper.py lines 131-150, `get_properties`: `ensure_supported(char)`
then a cache lookup that cannot miss for alphabet entries (the cache has
one row per alphabet entry); the float payload of the returned
properties is not modelled. -/
def get_properties_e (char : List Nat) : Except Err Unit :=
  ensure_supported_e char

/-- mapper.py lines 152-159, `get_front_id` = `get_index`:
`ensure_supported(char)` then `CHAR_TO_INDEX[char]`, the first index of
`char` in the (duplicate-free) alphabet. -/
def get_front_id_e (char : List Nat) : Except Err Nat :=
  match ensure_supported_e char with
  | .error e => .error e
  | .ok _ => .ok (listIdx char ALPHABET)

/-- codec.py lines 221-257, `SJZIPCodec.encode_chunk`: reject empty or
over-long text, `validate_text`, compute the digits with the first
character as front, serialize the payload, validate the last character
(for its float spiral properties), compute the front id, and build the
record. -/
def encode_chunk (text : List Nat) : Except Err DotRecord :=
  match text with
  | [] => .error .emptyText
  | c0 :: rest =>
    if (c0 :: rest).length > CHUNK_SIZE then .error .chunkTooLong
    else
      match validate_text_e (c0 :: rest) CHUNK_SIZE with
      | .error e => .error e
      | .ok _ =>
        match digits_from_text [c0] (c0 :: rest) with
        | .error e => .error e
        | .ok digits =>
          match payload_from_indices digits with
          | .error e => .error e
          | .ok payload =>
            match get_properties_e [(c0 :: rest).getLastD 0] with
            | .error e => .error e
            | .ok _ =>
              match get_front_id_e [c0] with
              | .error e => .error e
              | .ok front_index =>
                mkDotRecord front_index (c0 :: rest).length payload

/-- codec.py lines 259-285, `SJZIPCodec.decode_chunk`: check the front
index range, recover the front character through `INDEX_TO_CHAR`, fetch
the front order (which re-validates the front character), extract the
digit list from the payload, and map each digit through the order,
failing on a digit outside the order. -/
def decode_chunk (record : DotRecord) : Except Err (List Nat) :=
  if record.front_index ≥ ALPHABET_SIZE then .error .invalidFrontIndex
  else
    match front_order_e (ALPHABET.getD record.front_index []) with
    | .error e => .error e
    | .ok order_map =>
      match indices_from_payload record.payload record.length with
      | .error e => .error e
      | .ok digits =>
        match mapME (fun digit =>
            if digit ≥ order_map.length then .error .digitOutsideFrontOrder
            else .ok (order_map.getD digit [])) digits with
        | .error e => .error e
        | .ok chars => .ok chars.flatten

/-!
## OptimizedCodec — src/sjzip/optimizations/optimized_sjzip.py
-/

/-- optimized_sjzip.py lines 26-42, `OptimizedDotRecord`. -/
structure OptimizedDotRecord where
  front_index : Nat
  length : Nat
  hilbert_index : Nat
  quaternion : List Nat
  compressed_payload : List Nat
deriving DecidableEq, Repr

/-- optimized_sjzip.py lines 35-42, `OptimizedDotRecord.__post_init__`. -/
def mkOptimizedDotRecord (front_index length hilbert_index : Nat)
    (quaternion compressed_payload : List Nat) : Except Err OptimizedDotRecord :=
  if front_index ≥ ALPHABET_SIZE then .error .invalidRecordField
  else if length = 0 ∨ length > CHUNK_SIZE then .error .invalidRecordField
  else if quaternion.length ≠ 6 then .error .invalidRecordField
  else .ok ⟨front_index, length, hilbert_index, quaternion, compressed_payload⟩

/-- optimized_sjzip.py lines 125-175,
`OptimizedSJZIPCodec.encode_chunk_optimized`.  `quatBytes` abstracts the
float quaternion pipeline of lines 160-163 (`angle_radius_to_quaternion`
followed by `compress_quaternion`, applied to the spiral properties of
the last character); the source always produces exactly 6 bytes there.
Note that `hilbert_index` is the literal constant 0 from line 153 and is
never reassigned — the `HilbertCurve3D` instance created in `__init__`
for level 3 is not consulted. -/
def encode_chunk_optimized (quatBytes : Nat → List Nat) (level : Nat)
    (text : List Nat) : Except Err OptimizedDotRecord :=
  if text = [] then .error .emptyText
  else
    let text := if text.length > CHUNK_SIZE then text.take CHUNK_SIZE else text
    match validate_text_e text CHUNK_SIZE with
    | .error e => .error e
    | .ok _ =>
      let front_char := [text.headD 0]
      let front_index := if front_char ∈ ALPHABET then listIdx front_char ALPHABET else 0
      if level = 0 then
        match encode_chunk text with
        | .error e => .error e
        | .ok record =>
          mkOptimizedDotRecord record.front_index record.length 0
            (List.replicate 6 0) record.payload
      else
        match digits_from_text front_char text with
        | .error e => .error e
        | .ok digits =>
          match payload_from_indices digits with
          | .error e => .error e
          | .ok base_payload =>
            if level ≥ 3 then
              match get_properties_e [text.getLastD 0] with
              | .error e => .error e
              | .ok _ =>
                mkOptimizedDotRecord front_index text.length 0
                  (quatBytes (text.getLastD 0)) base_payload
            else
              mkOptimizedDotRecord front_index text.length 0
                (List.replicate 6 0) base_payload

/-- optimized_sjzip.py lines 177-197,
`OptimizedSJZIPCodec.decode_chunk_optimized`: check the front index,
recover the front character, extract the digits from the payload, fetch
the front order, and map each digit through it — degrading a digit
outside the order to the sentinel `chr(0)` instead of failing. -/
def decode_chunk_optimized (record : OptimizedDotRecord) : Except Err (List Nat) :=
  if record.front_index ≥ ALPHABET_SIZE then .error .invalidFrontIndex
  else
    match indices_from_payload record.compressed_payload record.length with
    | .error e => .error e
    | .ok indices =>
      match front_order_e (ALPHABET.getD record.front_index []) with
      | .error e => .error e
      | .ok order_map =>
        .ok (indices.map (fun idx =>
          if idx < order_map.length then order_map.getD idx [] else [0])).flatten

/-- Modelled from the spec: the strict variant of
`decode_chunk_optimized` in which a decoded digit outside the
permutation's domain fails (CorruptionError) instead of degrading to the
sentinel character.  Proving it extensionally equal to
`decode_chunk_optimized` shows the degrade branch is unreachable. -/
def decode_chunk_optimized_strict (record : OptimizedDotRecord) : Except Err (List Nat) :=
  if record.front_index ≥ ALPHABET_SIZE then .error .invalidFrontIndex
  else
    match indices_from_payload record.compressed_payload record.length with
    | .error e => .error e
    | .ok indices =>
      match front_order_e (ALPHABET.getD record.front_index []) with
      | .error e => .error e
      | .ok order_map =>
        match mapME (fun idx =>
            if idx < order_map.length then .ok (order_map.getD idx [])
            else .error .digitOutsideFrontOrder) indices with
        | .error e => .error e
        | .ok chars => .ok chars.flatten

/-!
## HilbertCurve3D — src/sjzip/optimizations/hilbert_optimizer.py

The source loops `for level in range(self.order)` are embedded as left
folds over `List.range order`; the bit tests `octant & 1`, `octant & 2`,
`octant & 4` are rendered as `octant / k % 2` for `k = 1, 2, 4`, and the
bit assembly `octant |= k` as addition of the disjoint summands.
-/

/-- hilbert_optimizer.py lines 43-54: the loop body of
`hilbert_index_to_3d`, folding over the levels from an initial
coordinate state `s` (the source starts from `x = y = z = 0`). -/
def hilbertDecodeLoop (order index : Nat) (s : Nat × Nat × Nat) : Nat × Nat × Nat :=
  (List.range order).foldl (fun s level =>
    let n := 2 ^ (order - level - 1)
    let octant := index / (n * n * n) % 8
    (s.1 + (if octant / 1 % 2 = 1 then n else 0),
     s.2.1 + (if octant / 2 % 2 = 1 then n else 0),
     s.2.2 + (if octant / 4 % 2 = 1 then n else 0))) s

/-- hilbert_optimizer.py lines 38-56, `hilbert_index_to_3d` with its
range validation against `total_points = 2 ** (3 * order)`. -/
def hilbert_index_to_3d (order index : Nat) : Except Err (Nat × Nat × Nat) :=
  if index ≥ 2 ^ (3 * order) then .error .outOfRange
  else .ok (hilbertDecodeLoop order index (0, 0, 0))

/-- hilbert_optimizer.py lines 63-79: the loop body of
`coords_3d_to_hilbert_index`, folding the state
(x, y, z, accumulated index) over the levels. -/
def hilbertEncodeLoop (order : Nat) (s : Nat × Nat × Nat × Nat) : Nat × Nat × Nat × Nat :=
  (List.range order).foldl (fun s level =>
    let n := 2 ^ (order - level - 1)
    match s with
    | (x, y, z, index) =>
      ((if x ≥ n then x - n else x),
       (if y ≥ n then y - n else y),
       (if z ≥ n then z - n else z),
       index + ((if x ≥ n then 1 else 0) + (if y ≥ n then 2 else 0) +
                (if z ≥ n then 4 else 0)) * (n * n * n))) s

/-- hilbert_optimizer.py lines 58-81, `coords_3d_to_hilbert_index` with
its range validation against `max_coord = 2 ** order - 1`. -/
def coords_3d_to_hilbert_index (order x y z : Nat) : Except Err Nat :=
  if x > 2 ^ order - 1 ∨ y > 2 ^ order - 1 ∨ z > 2 ^ order - 1 then .error .outOfRange
  else .ok (hilbertEncodeLoop order (x, y, z, 0)).2.2.2

/-- Structural-recursion form of one coordinate of the index-to-coords
loop: the `sel`-selected bit (`sel` in 1, 2, 4) of each octant of the
index, most significant level first. -/
def mortonDec (sel : Nat) : Nat → Nat → Nat
  | 0, _ => 0
  | o + 1, index => (if index / 8 ^ o % 8 / sel % 2 = 1 then 2 ^ o else 0) + mortonDec sel o index

/-- Structural-recursion form of the coords-to-index loop. -/
def mortonEnc : Nat → Nat → Nat → Nat → Nat
  | 0, _, _, _ => 0
  | o + 1, x, y, z =>
    ((if x ≥ 2 ^ o then 1 else 0) + (if y ≥ 2 ^ o then 2 else 0) +
     (if z ≥ 2 ^ o then 4 else 0)) * 8 ^ o +
    mortonEnc o (if x ≥ 2 ^ o then x - 2 ^ o else x)
      (if y ≥ 2 ^ o then y - 2 ^ o else y)
      (if z ≥ 2 ^ o then z - 2 ^ o else z)

/-- The minimal big-endian byte string of a natural number as produced by
codec.py lines 177-185: one zero byte for zero, otherwise
`value.to_bytes((value.bit_length() + 7) // 8, "big")`. -/
def minBytesBE (v : Nat) : List Nat :=
  if v = 0 then [0] else natToDigitsBE 256 ((Nat.log2 v + 1 + 7) / 8) v

/-!
## Theorems
-/

theorem mapME_ok {α β : Type} (f : α → Except Err β) (g : α → β) :
    ∀ l : List α, (∀ x ∈ l, f x = .ok (g x)) → mapME f l = .ok (l.map g) := by
  intro l
  induction l with
  | nil => intro _; rfl
  | cons a t ih =>
    intro h
    have ha := h a (by simp)
    have ht := ih (fun x hx => h x (by simp [hx]))
    simp [mapME, ha, ht]

theorem natToDigitsBE_length (b n v : Nat) : (natToDigitsBE b n v).length = n := by
  induction n generalizing v with
  | zero => rfl
  | succ n ih => simp [natToDigitsBE, ih]

theorem natToDigitsBE_lt (b n v : Nat) (hb : 0 < b) :
    ∀ d ∈ natToDigitsBE b n v, d < b := by
  induction n generalizing v with
  | zero => intro d hd; simp [natToDigitsBE] at hd
  | succ n ih =>
    intro d hd
    simp only [natToDigitsBE, List.mem_append, List.mem_singleton] at hd
    rcases hd with hd | hd
    · exact ih _ d hd
    · subst hd; exact Nat.mod_lt _ hb

theorem natFromDigitsBE_acc (b : Nat) (a : Nat) (ds : List Nat) :
    ds.foldl (fun v d => v * b + d) a = a * b ^ ds.length + natFromDigitsBE b ds := by
  induction ds generalizing a with
  | nil => simp [natFromDigitsBE]
  | cons d t ih =>
    simp only [List.foldl_cons, List.length_cons, natFromDigitsBE]
    rw [ih (a * b + d), ih (0 * b + d)]
    ring

theorem natFromDigitsBE_cons (b d : Nat) (t : List Nat) :
    natFromDigitsBE b (d :: t) = d * b ^ t.length + natFromDigitsBE b t := by
  have := natFromDigitsBE_acc b d t
  simpa [natFromDigitsBE] using this

theorem natFromDigitsBE_append_single (b d : Nat) (xs : List Nat) :
    natFromDigitsBE b (xs ++ [d]) = natFromDigitsBE b xs * b + d := by
  simp [natFromDigitsBE, List.foldl_append]

theorem natFromDigitsBE_lt (b : Nat) (ds : List Nat) (hb : 0 < b)
    (h : ∀ d ∈ ds, d < b) : natFromDigitsBE b ds < b ^ ds.length := by
  induction ds using List.reverseRecOn with
  | nil => simp [natFromDigitsBE]
  | append_singleton xs d ih =>
    rw [natFromDigitsBE_append_single]
    have hxs : natFromDigitsBE b xs < b ^ xs.length :=
      ih (fun x hx => h x (by simp [hx]))
    have hd : d < b := h d (by simp)
    calc natFromDigitsBE b xs * b + d
        ≤ (b ^ xs.length - 1) * b + d := by
          have hle : natFromDigitsBE b xs ≤ b ^ xs.length - 1 := Nat.le_sub_one_of_lt hxs
          exact Nat.add_le_add_right (Nat.mul_le_mul_right b hle) d
      _ < (b ^ xs.length - 1) * b + b := Nat.add_lt_add_left hd _
      _ = b ^ xs.length * b := by
          have h1 : 1 ≤ b ^ xs.length := Nat.one_le_pow _ _ hb
          have h2 : b ≤ b ^ xs.length * b := Nat.le_mul_of_pos_left b h1
          rw [Nat.sub_mul, Nat.one_mul, Nat.sub_add_cancel h2]
      _ = b ^ (xs ++ [d]).length := by simp [Nat.pow_succ]

theorem natToDigitsBE_natFromDigitsBE (b : Nat) (hb : 0 < b) (ds : List Nat)
    (h : ∀ d ∈ ds, d < b) :
    natToDigitsBE b ds.length (natFromDigitsBE b ds) = ds := by
  induction ds using List.reverseRecOn with
  | nil => rfl
  | append_singleton xs d ih =>
    have hd : d < b := h d (by simp)
    rw [natFromDigitsBE_append_single]
    have hlen : (xs ++ [d]).length = xs.length + 1 := by simp
    rw [hlen]
    simp only [natToDigitsBE]
    have hdiv : (natFromDigitsBE b xs * b + d) / b = natFromDigitsBE b xs := by
      rw [Nat.add_comm, Nat.add_mul_div_right _ _ hb, Nat.div_eq_of_lt hd, Nat.zero_add]
    have hmod : (natFromDigitsBE b xs * b + d) % b = d := by
      rw [Nat.mul_comm, Nat.mul_add_mod, Nat.mod_eq_of_lt hd]
    rw [hdiv, hmod, ih (fun x hx => h x (by simp [hx]))]

theorem natFromDigitsBE_natToDigitsBE (b : Nat) (hb : 0 < b) :
    ∀ n v, natFromDigitsBE b (natToDigitsBE b n v) = v % b ^ n := by
  intro n
  induction n with
  | zero => intro v; simp [natToDigitsBE, natFromDigitsBE, Nat.mod_one]
  | succ n ih =>
    intro v
    simp only [natToDigitsBE, natFromDigitsBE_append_single, ih]
    rw [Nat.pow_succ, Nat.mul_comm (b ^ n) b, Nat.mod_mul]
    ring

theorem listIdx_lt_length {a : List Nat} : ∀ {l : List (List Nat)}, a ∈ l →
    listIdx a l < l.length := by
  intro l
  induction l with
  | nil => intro h; simp at h
  | cons b t ih =>
    intro h
    by_cases hba : b = a
    · simp [listIdx, hba]
    · have : a ∈ t := by
        rcases List.mem_cons.mp h with h | h
        · exact absurd h.symm hba
        · exact h
      simp only [listIdx, if_neg hba, List.length_cons]
      exact Nat.succ_lt_succ (ih this)

theorem getD_listIdx {a : List Nat} : ∀ {l : List (List Nat)}, a ∈ l →
    l.getD (listIdx a l) [] = a := by
  intro l
  induction l with
  | nil => intro h; simp at h
  | cons b t ih =>
    intro h
    by_cases hba : b = a
    · simp [listIdx, hba]
    · have hat : a ∈ t := by
        rcases List.mem_cons.mp h with h | h
        · exact absurd h.symm hba
        · exact h
      simp only [listIdx, if_neg hba]
      simpa using ih hat

theorem mem_dedupAppend {x : List Nat} :
    ∀ {l acc : List (List Nat)}, (x ∈ dedupAppend acc l ↔ x ∈ acc ∨ x ∈ l) := by
  intro l
  induction l with
  | nil => intro acc; simp [dedupAppend]
  | cons c t ih =>
    intro acc
    simp only [dedupAppend, List.foldl_cons]
    by_cases hc : c ∈ acc
    · rw [if_pos hc]
      rw [show t.foldl (fun acc c => if c ∈ acc then acc else acc ++ [c]) acc
            = dedupAppend acc t from rfl, ih]
      constructor
      · rintro (h | h)
        · exact Or.inl h
        · exact Or.inr (by simp [h])
      · rintro (h | h)
        · exact Or.inl h
        · rcases List.mem_cons.mp h with h | h
          · exact Or.inl (h ▸ hc)
          · exact Or.inr h
    · rw [if_neg hc]
      rw [show t.foldl (fun acc c => if c ∈ acc then acc else acc ++ [c]) (acc ++ [c])
            = dedupAppend (acc ++ [c]) t from rfl, ih]
      simp only [List.mem_append, List.mem_singleton, List.mem_cons]
      tauto

theorem nodup_dedupAppend :
    ∀ {l acc : List (List Nat)}, acc.Nodup → (dedupAppend acc l).Nodup := by
  intro l
  induction l with
  | nil => intro acc h; simpa [dedupAppend] using h
  | cons c t ih =>
    intro acc hacc
    simp only [dedupAppend, List.foldl_cons]
    by_cases hc : c ∈ acc
    · rw [if_pos hc]; exact ih hacc
    · rw [if_neg hc]
      refine ih ?_
      simp [List.nodup_append, hacc, hc]

theorem dedupAppend_append (acc xs ys : List (List Nat)) :
    dedupAppend acc (xs ++ ys) = dedupAppend (dedupAppend acc xs) ys := by
  unfold dedupAppend
  rw [List.foldl_append]

set_option maxRecDepth 20000 in
/-- The literal `ALPHABET` above is exactly what the deduplicating build
loop produces from the three source lists (evaluated in three stages:
after the printable block the accumulator is the first 96 entries, after
the Korean block the first 225). -/
theorem alphabet_build :
    dedupAppend [[0]] (BASE_PRINTABLE ++ KOREAN_CHARS ++ EXTRA_CHARS) = ALPHABET := by
  rw [dedupAppend_append, dedupAppend_append,
    show dedupAppend [[0]] BASE_PRINTABLE = ALPHABET.take 96 from by decide,
    show dedupAppend (ALPHABET.take 96) KOREAN_CHARS = ALPHABET.take 225 from by decide,
    show dedupAppend (ALPHABET.take 225) EXTRA_CHARS = ALPHABET from by decide]

theorem alphabet_nodup : ALPHABET.Nodup :=
  alphabet_build ▸ nodup_dedupAppend (by simp)

set_option maxRecDepth 4000 in
theorem alphabet_size_eq : ALPHABET_SIZE = 247 := by decide

set_option maxRecDepth 4000 in
theorem singleA_mem_alphabet : [65] ∈ ALPHABET := by decide

theorem front_order_table_nodup (front : List Nat) : (front_order_table front).Nodup := by
  unfold front_order_table
  by_cases h : front = [65]
  · rw [if_pos h]
    exact nodup_dedupAppend (by simp)
  · rw [if_neg h]
    exact nodup_dedupAppend (by simp [h])

theorem mem_front_order_table {front : List Nat} (hf : front ∈ ALPHABET)
    (x : List Nat) : x ∈ front_order_table front ↔ x ∈ ALPHABET := by
  unfold front_order_table
  rw [mem_dedupAppend]
  constructor
  · rintro (hx | hx)
    · simp only [List.mem_append, List.mem_singleton] at hx
      rcases hx with hx | hx
      · exact hx ▸ hf
      · by_cases h : front = [65] <;> simp [h] at hx
        exact hx ▸ singleA_mem_alphabet
    · exact hx
  · intro hx; exact Or.inr hx

theorem front_order_table_length {front : List Nat} (hf : front ∈ ALPHABET) :
    (front_order_table front).length = ALPHABET_SIZE := by
  have hfin : (front_order_table front).toFinset = ALPHABET.toFinset := by
    ext a
    simp [List.mem_toFinset, mem_front_order_table hf]
  have h1 := List.toFinset_card_of_nodup (front_order_table_nodup front)
  have h2 := List.toFinset_card_of_nodup alphabet_nodup
  unfold ALPHABET_SIZE
  rw [← h1, ← h2, hfin]

theorem ensure_supported_single {c : Nat} (hc : [c] ∈ ALPHABET) :
    ensure_supported_e [c] = .ok () := by
  simp [ensure_supported_e, hc]

theorem front_position_single {f c : Nat} (hf : [f] ∈ ALPHABET) (hc : [c] ∈ ALPHABET) :
    front_position_e [f] [c] = .ok (listIdx [c] (front_order_table [f])) := by
  have hmem : [c] ∈ front_order_table [f] := (mem_front_order_table hf [c]).mpr hc
  simp [front_position_e, ensure_supported_single hf, ensure_supported_single hc, hmem]

theorem listIdx_front_order_lt {f c : Nat} (hf : [f] ∈ ALPHABET) (hc : [c] ∈ ALPHABET) :
    listIdx [c] (front_order_table [f]) < ALPHABET_SIZE := by
  rw [← front_order_table_length hf]
  exact listIdx_lt_length ((mem_front_order_table hf [c]).mpr hc)

theorem pow_eight (o : Nat) : 8 ^ o = 2 ^ o * 2 ^ o * 2 ^ o := by
  rw [show (8 : Nat) = 2 * 2 * 2 from rfl]
  rw [Nat.mul_pow, Nat.mul_pow]

theorem hilbertDecodeLoop_spec (o index : Nat) :
    ∀ s : Nat × Nat × Nat, hilbertDecodeLoop o index s =
      (s.1 + mortonDec 1 o index, s.2.1 + mortonDec 2 o index, s.2.2 + mortonDec 4 o index) := by
  induction o with
  | zero => intro s; simp [hilbertDecodeLoop, mortonDec]
  | succ o ih =>
    intro s
    unfold hilbertDecodeLoop
    rw [List.range_succ_eq_map, List.foldl_cons, List.foldl_map]
    simp only [Nat.succ_sub_succ]
    rw [show ∀ t : Nat × Nat × Nat,
        (List.range o).foldl (fun s level =>
          let n := 2 ^ (o - level - 1)
          let octant := index / (n * n * n) % 8
          (s.1 + (if octant / 1 % 2 = 1 then n else 0),
           s.2.1 + (if octant / 2 % 2 = 1 then n else 0),
           s.2.2 + (if octant / 4 % 2 = 1 then n else 0))) t =
          hilbertDecodeLoop o index t from fun t => rfl]
    rw [ih]
    show (_ + _ + mortonDec 1 o index, _ + _ + mortonDec 2 o index,
          _ + _ + mortonDec 4 o index) = _
    have hn : o + 1 - 0 - 1 = o := by omega
    rw [hn]
    rw [show (mortonDec 1 (o + 1) index)
          = (if index / 8 ^ o % 8 / 1 % 2 = 1 then 2 ^ o else 0) + mortonDec 1 o index from rfl,
        show (mortonDec 2 (o + 1) index)
          = (if index / 8 ^ o % 8 / 2 % 2 = 1 then 2 ^ o else 0) + mortonDec 2 o index from rfl,
        show (mortonDec 4 (o + 1) index)
          = (if index / 8 ^ o % 8 / 4 % 2 = 1 then 2 ^ o else 0) + mortonDec 4 o index from rfl]
    rw [pow_eight]
    exact Prod.ext (by ring) (Prod.ext (by ring) (by ring))

theorem hilbertEncodeLoop_spec (o : Nat) :
    ∀ x y z i : Nat, ∃ x' y' z' : Nat,
      hilbertEncodeLoop o (x, y, z, i) = (x', y', z', i + mortonEnc o x y z) := by
  induction o with
  | zero =>
    intro x y z i
    exact ⟨x, y, z, by simp [hilbertEncodeLoop, mortonEnc]⟩
  | succ o ih =>
    intro x y z i
    unfold hilbertEncodeLoop
    rw [List.range_succ_eq_map, List.foldl_cons, List.foldl_map]
    simp only [Nat.succ_sub_succ]
    rw [show ∀ t : Nat × Nat × Nat × Nat,
        (List.range o).foldl (fun s level =>
          let n := 2 ^ (o - level - 1)
          match s with
          | (x, y, z, index) =>
            ((if x ≥ n then x - n else x),
             (if y ≥ n then y - n else y),
             (if z ≥ n then z - n else z),
             index + ((if x ≥ n then 1 else 0) + (if y ≥ n then 2 else 0) +
                      (if z ≥ n then 4 else 0)) * (n * n * n))) t =
          hilbertEncodeLoop o t from fun t => rfl]
    have hn : o + 1 - 0 - 1 = o := by omega
    rw [hn]
    obtain ⟨x', y', z', hrec⟩ := ih (if x ≥ 2 ^ o then x - 2 ^ o else x)
      (if y ≥ 2 ^ o then y - 2 ^ o else y) (if z ≥ 2 ^ o then z - 2 ^ o else z)
      (i + ((if x ≥ 2 ^ o then 1 else 0) + (if y ≥ 2 ^ o then 2 else 0) +
            (if z ≥ 2 ^ o then 4 else 0)) * (2 ^ o * 2 ^ o * 2 ^ o))
    refine ⟨x', y', z', ?_⟩
    rw [hrec]
    show _ = (x', y', z', i + mortonEnc (o + 1) x y z)
    rw [show mortonEnc (o + 1) x y z =
        ((if x ≥ 2 ^ o then 1 else 0) + (if y ≥ 2 ^ o then 2 else 0) +
         (if z ≥ 2 ^ o then 4 else 0)) * 8 ^ o +
        mortonEnc o (if x ≥ 2 ^ o then x - 2 ^ o else x)
          (if y ≥ 2 ^ o then y - 2 ^ o else y)
          (if z ≥ 2 ^ o then z - 2 ^ o else z) from rfl]
    rw [pow_eight]
    exact Prod.ext rfl (Prod.ext rfl (Prod.ext rfl (by ring)))

theorem mortonDec_lt (sel : Nat) : ∀ o index, mortonDec sel o index < 2 ^ o := by
  intro o
  induction o with
  | zero => intro index; simp [mortonDec]
  | succ o ih =>
    intro index
    have h := ih index
    unfold mortonDec
    by_cases hbit : index / 8 ^ o % 8 / sel % 2 = 1
    · rw [if_pos hbit, Nat.pow_succ]; omega
    · rw [if_neg hbit, Nat.pow_succ]; omega

theorem mortonEnc_lt : ∀ o x y z, mortonEnc o x y z < 8 ^ o := by
  intro o
  induction o with
  | zero => intro x y z; simp [mortonEnc]
  | succ o ih =>
    intro x y z
    unfold mortonEnc
    have hrec := ih (if x ≥ 2 ^ o then x - 2 ^ o else x)
      (if y ≥ 2 ^ o then y - 2 ^ o else y) (if z ≥ 2 ^ o then z - 2 ^ o else z)
    have hoct : ((if x ≥ 2 ^ o then 1 else 0) + (if y ≥ 2 ^ o then 2 else 0) +
        (if z ≥ 2 ^ o then 4 else 0)) ≤ 7 := by
      split_ifs <;> omega
    have : ((if x ≥ 2 ^ o then 1 else 0) + (if y ≥ 2 ^ o then 2 else 0) +
        (if z ≥ 2 ^ o then 4 else 0)) * 8 ^ o ≤ 7 * 8 ^ o :=
      Nat.mul_le_mul_right _ hoct
    rw [Nat.pow_succ]
    omega

theorem mortonDec_congr (sel : Nat) : ∀ o a b, a % 8 ^ o = b % 8 ^ o →
    mortonDec sel o a = mortonDec sel o b := by
  intro o
  induction o with
  | zero => intro a b _; rfl
  | succ o ih =>
    intro a b hab
    have hdvd : 8 ^ o ∣ 8 ^ (o + 1) := Nat.pow_dvd_pow 8 (by omega)
    have htail : a % 8 ^ o = b % 8 ^ o := by
      rw [← Nat.mod_mod_of_dvd a hdvd, ← Nat.mod_mod_of_dvd b hdvd, hab]
    have htop : a / 8 ^ o % 8 = b / 8 ^ o % 8 := by
      have ha : a % 8 ^ (o + 1) / 8 ^ o = a / 8 ^ o % 8 := by
        rw [Nat.pow_succ]; exact Nat.mod_mul_right_div_self a (8 ^ o) 8
      have hb : b % 8 ^ (o + 1) / 8 ^ o = b / 8 ^ o % 8 := by
        rw [Nat.pow_succ]; exact Nat.mod_mul_right_div_self b (8 ^ o) 8
      rw [← ha, ← hb, hab]
    unfold mortonDec
    rw [htop, ih a b htail]

theorem morton_enc_dec : ∀ o index, index < 8 ^ o →
    mortonEnc o (mortonDec 1 o index) (mortonDec 2 o index) (mortonDec 4 o index) = index := by
  intro o
  induction o with
  | zero =>
    intro index h
    rw [Nat.pow_zero] at h
    interval_cases index
    rfl
  | succ o ih =>
    intro index h
    have hp : 0 < (8 : Nat) ^ o := pow_pos (by norm_num) o
    have hoct8 : index / 8 ^ o < 8 := by
      apply Nat.div_lt_of_lt_mul
      rw [← Nat.pow_succ]
      exact h
    have hmod8 : index / 8 ^ o % 8 = index / 8 ^ o := Nat.mod_eq_of_lt hoct8
    have hX : mortonDec 1 (o + 1) index =
        (if index / 8 ^ o / 1 % 2 = 1 then 2 ^ o else 0) + mortonDec 1 o index := by
      rw [show mortonDec 1 (o + 1) index =
          (if index / 8 ^ o % 8 / 1 % 2 = 1 then 2 ^ o else 0) + mortonDec 1 o index from rfl,
        hmod8]
    have hY : mortonDec 2 (o + 1) index =
        (if index / 8 ^ o / 2 % 2 = 1 then 2 ^ o else 0) + mortonDec 2 o index := by
      rw [show mortonDec 2 (o + 1) index =
          (if index / 8 ^ o % 8 / 2 % 2 = 1 then 2 ^ o else 0) + mortonDec 2 o index from rfl,
        hmod8]
    have hZ : mortonDec 4 (o + 1) index =
        (if index / 8 ^ o / 4 % 2 = 1 then 2 ^ o else 0) + mortonDec 4 o index := by
      rw [show mortonDec 4 (o + 1) index =
          (if index / 8 ^ o % 8 / 4 % 2 = 1 then 2 ^ o else 0) + mortonDec 4 o index from rfl,
        hmod8]
    have hdX := mortonDec_lt 1 o index
    have hdY := mortonDec_lt 2 o index
    have hdZ := mortonDec_lt 4 o index
    rw [hX, hY, hZ]
    rw [show mortonEnc (o + 1)
        ((if index / 8 ^ o / 1 % 2 = 1 then 2 ^ o else 0) + mortonDec 1 o index)
        ((if index / 8 ^ o / 2 % 2 = 1 then 2 ^ o else 0) + mortonDec 2 o index)
        ((if index / 8 ^ o / 4 % 2 = 1 then 2 ^ o else 0) + mortonDec 4 o index) =
        ((if (if index / 8 ^ o / 1 % 2 = 1 then 2 ^ o else 0) + mortonDec 1 o index ≥ 2 ^ o
            then 1 else 0) +
         (if (if index / 8 ^ o / 2 % 2 = 1 then 2 ^ o else 0) + mortonDec 2 o index ≥ 2 ^ o
            then 2 else 0) +
         (if (if index / 8 ^ o / 4 % 2 = 1 then 2 ^ o else 0) + mortonDec 4 o index ≥ 2 ^ o
            then 4 else 0)) * 8 ^ o +
        mortonEnc o
          (if (if index / 8 ^ o / 1 % 2 = 1 then 2 ^ o else 0) + mortonDec 1 o index ≥ 2 ^ o
            then (if index / 8 ^ o / 1 % 2 = 1 then 2 ^ o else 0) + mortonDec 1 o index - 2 ^ o
            else (if index / 8 ^ o / 1 % 2 = 1 then 2 ^ o else 0) + mortonDec 1 o index)
          (if (if index / 8 ^ o / 2 % 2 = 1 then 2 ^ o else 0) + mortonDec 2 o index ≥ 2 ^ o
            then (if index / 8 ^ o / 2 % 2 = 1 then 2 ^ o else 0) + mortonDec 2 o index - 2 ^ o
            else (if index / 8 ^ o / 2 % 2 = 1 then 2 ^ o else 0) + mortonDec 2 o index)
          (if (if index / 8 ^ o / 4 % 2 = 1 then 2 ^ o else 0) + mortonDec 4 o index ≥ 2 ^ o
            then (if index / 8 ^ o / 4 % 2 = 1 then 2 ^ o else 0) + mortonDec 4 o index - 2 ^ o
            else (if index / 8 ^ o / 4 % 2 = 1 then 2 ^ o else 0) + mortonDec 4 o index)
        from rfl]
    have e1 : (if (if index / 8 ^ o / 1 % 2 = 1 then 2 ^ o else 0) + mortonDec 1 o index ≥ 2 ^ o
        then 1 else 0) = index / 8 ^ o / 1 % 2 := by
      by_cases hb : index / 8 ^ o / 1 % 2 = 1
      · rw [if_pos hb, hb, if_pos (by omega)]
      · rw [if_neg hb, if_neg (by omega)]
        omega
    have e2 : (if (if index / 8 ^ o / 2 % 2 = 1 then 2 ^ o else 0) + mortonDec 2 o index ≥ 2 ^ o
        then 2 else 0) = 2 * (index / 8 ^ o / 2 % 2) := by
      by_cases hb : index / 8 ^ o / 2 % 2 = 1
      · rw [if_pos hb, hb, if_pos (by omega)]
      · rw [if_neg hb, if_neg (by omega)]
        omega
    have e3 : (if (if index / 8 ^ o / 4 % 2 = 1 then 2 ^ o else 0) + mortonDec 4 o index ≥ 2 ^ o
        then 4 else 0) = 4 * (index / 8 ^ o / 4 % 2) := by
      by_cases hb : index / 8 ^ o / 4 % 2 = 1
      · rw [if_pos hb, hb, if_pos (by omega)]
      · rw [if_neg hb, if_neg (by omega)]
        omega
    have r1 : (if (if index / 8 ^ o / 1 % 2 = 1 then 2 ^ o else 0) + mortonDec 1 o index ≥ 2 ^ o
        then (if index / 8 ^ o / 1 % 2 = 1 then 2 ^ o else 0) + mortonDec 1 o index - 2 ^ o
        else (if index / 8 ^ o / 1 % 2 = 1 then 2 ^ o else 0) + mortonDec 1 o index)
        = mortonDec 1 o index := by
      by_cases hb : index / 8 ^ o / 1 % 2 = 1
      · rw [if_pos hb, if_pos (by omega)]
        omega
      · rw [if_neg hb, if_neg (by omega)]
        omega
    have r2 : (if (if index / 8 ^ o / 2 % 2 = 1 then 2 ^ o else 0) + mortonDec 2 o index ≥ 2 ^ o
        then (if index / 8 ^ o / 2 % 2 = 1 then 2 ^ o else 0) + mortonDec 2 o index - 2 ^ o
        else (if index / 8 ^ o / 2 % 2 = 1 then 2 ^ o else 0) + mortonDec 2 o index)
        = mortonDec 2 o index := by
      by_cases hb : index / 8 ^ o / 2 % 2 = 1
      · rw [if_pos hb, if_pos (by omega)]
        omega
      · rw [if_neg hb, if_neg (by omega)]
        omega
    have r3 : (if (if index / 8 ^ o / 4 % 2 = 1 then 2 ^ o else 0) + mortonDec 4 o index ≥ 2 ^ o
        then (if index / 8 ^ o / 4 % 2 = 1 then 2 ^ o else 0) + mortonDec 4 o index - 2 ^ o
        else (if index / 8 ^ o / 4 % 2 = 1 then 2 ^ o else 0) + mortonDec 4 o index)
        = mortonDec 4 o index := by
      by_cases hb : index / 8 ^ o / 4 % 2 = 1
      · rw [if_pos hb, if_pos (by omega)]
        omega
      · rw [if_neg hb, if_neg (by omega)]
        omega
    rw [e1, e2, e3, r1, r2, r3]
    have hsum : index / 8 ^ o / 1 % 2 + 2 * (index / 8 ^ o / 2 % 2) + 4 * (index / 8 ^ o / 4 % 2)
        = index / 8 ^ o := by omega
    rw [hsum]
    have hcongr : ∀ sel, mortonDec sel o index = mortonDec sel o (index % 8 ^ o) := by
      intro sel
      exact mortonDec_congr sel o index (index % 8 ^ o)
        (Nat.mod_mod_of_dvd index (dvd_refl (8 ^ o))).symm
    rw [hcongr 1, hcongr 2, hcongr 4, ih (index % 8 ^ o) (Nat.mod_lt index hp)]
    rw [Nat.mul_comm]
    exact Nat.div_add_mod index (8 ^ o)

theorem morton_dec_enc : ∀ o x y z, x < 2 ^ o → y < 2 ^ o → z < 2 ^ o →
    mortonDec 1 o (mortonEnc o x y z) = x ∧ mortonDec 2 o (mortonEnc o x y z) = y ∧
    mortonDec 4 o (mortonEnc o x y z) = z := by
  intro o
  induction o with
  | zero =>
    intro x y z hx hy hz
    rw [Nat.pow_zero] at hx hy hz
    interval_cases x
    interval_cases y
    interval_cases z
    exact ⟨rfl, rfl, rfl⟩
  | succ o ih =>
    intro x y z hx hy hz
    have hp : 0 < (8 : Nat) ^ o := pow_pos (by norm_num) o
    rw [Nat.pow_succ] at hx hy hz
    have hx1 : (if x ≥ 2 ^ o then x - 2 ^ o else x) < 2 ^ o := by split_ifs <;> omega
    have hy1 : (if y ≥ 2 ^ o then y - 2 ^ o else y) < 2 ^ o := by split_ifs <;> omega
    have hz1 : (if z ≥ 2 ^ o then z - 2 ^ o else z) < 2 ^ o := by split_ifs <;> omega
    obtain ⟨ihx, ihy, ihz⟩ := ih _ _ _ hx1 hy1 hz1
    have hrlt : mortonEnc o (if x ≥ 2 ^ o then x - 2 ^ o else x)
        (if y ≥ 2 ^ o then y - 2 ^ o else y) (if z ≥ 2 ^ o then z - 2 ^ o else z) < 8 ^ o :=
      mortonEnc_lt o _ _ _
    set r := mortonEnc o (if x ≥ 2 ^ o then x - 2 ^ o else x)
        (if y ≥ 2 ^ o then y - 2 ^ o else y) (if z ≥ 2 ^ o then z - 2 ^ o else z) with hr
    set oct := (if x ≥ 2 ^ o then 1 else 0) + (if y ≥ 2 ^ o then 2 else 0) +
        (if z ≥ 2 ^ o then 4 else 0) with hoct
    have hoct7 : oct ≤ 7 := by rw [hoct]; split_ifs <;> norm_num
    have henc : mortonEnc (o + 1) x y z = oct * 8 ^ o + r := by
      rw [hoct, hr]
      rfl
    have htop : (oct * 8 ^ o + r) / 8 ^ o % 8 = oct := by
      rw [Nat.add_comm, Nat.add_mul_div_right _ _ hp, Nat.div_eq_of_lt hrlt, Nat.zero_add,
        Nat.mod_eq_of_lt (by omega)]
    have htail : ∀ sel, mortonDec sel o (oct * 8 ^ o + r) = mortonDec sel o r := by
      intro sel
      refine mortonDec_congr sel o _ r ?_
      rw [Nat.add_comm]
      exact Nat.add_mul_mod_self_right r oct (8 ^ o)
    have hby : (if y ≥ 2 ^ o then 2 else 0) = 0 ∨ (if y ≥ 2 ^ o then 2 else 0) = 2 := by
      split_ifs <;> simp
    have hbz : (if z ≥ 2 ^ o then 4 else 0) = 0 ∨ (if z ≥ 2 ^ o then 4 else 0) = 4 := by
      split_ifs <;> simp
    have hbx : (if x ≥ 2 ^ o then 1 else 0) = 0 ∨ (if x ≥ 2 ^ o then 1 else 0) = 1 := by
      split_ifs <;> simp
    refine ⟨?_, ?_, ?_⟩
    · rw [henc]
      rw [show mortonDec 1 (o + 1) (oct * 8 ^ o + r) =
          (if (oct * 8 ^ o + r) / 8 ^ o % 8 / 1 % 2 = 1 then 2 ^ o else 0) +
            mortonDec 1 o (oct * 8 ^ o + r) from rfl]
      rw [htop, htail 1, ihx]
      by_cases hxo : x ≥ 2 ^ o
      · have hb1 : oct / 1 % 2 = 1 := by rw [hoct, if_pos hxo]; omega
        rw [if_pos hb1, if_pos hxo]
        omega
      · have hb1 : ¬oct / 1 % 2 = 1 := by rw [hoct, if_neg hxo]; omega
        rw [if_neg hb1, if_neg hxo]
        omega
    · rw [henc]
      rw [show mortonDec 2 (o + 1) (oct * 8 ^ o + r) =
          (if (oct * 8 ^ o + r) / 8 ^ o % 8 / 2 % 2 = 1 then 2 ^ o else 0) +
            mortonDec 2 o (oct * 8 ^ o + r) from rfl]
      rw [htop, htail 2, ihy]
      by_cases hyo : y ≥ 2 ^ o
      · have hb1 : oct / 2 % 2 = 1 := by rw [hoct, if_pos hyo]; omega
        rw [if_pos hb1, if_pos hyo]
        omega
      · have hb1 : ¬oct / 2 % 2 = 1 := by rw [hoct, if_neg hyo]; omega
        rw [if_neg hb1, if_neg hyo]
        omega
    · rw [henc]
      rw [show mortonDec 4 (o + 1) (oct * 8 ^ o + r) =
          (if (oct * 8 ^ o + r) / 8 ^ o % 8 / 4 % 2 = 1 then 2 ^ o else 0) +
            mortonDec 4 o (oct * 8 ^ o + r) from rfl]
      rw [htop, htail 4, ihz]
      by_cases hzo : z ≥ 2 ^ o
      · have hb1 : oct / 4 % 2 = 1 := by rw [hoct, if_pos hzo]; omega
        rw [if_pos hb1, if_pos hzo]
        omega
      · have hb1 : ¬oct / 4 % 2 = 1 := by rw [hoct, if_neg hzo]; omega
        rw [if_neg hb1, if_neg hzo]
        omega

theorem eight_pow_eq_two_pow (o : Nat) : (8 : Nat) ^ o = 2 ^ (3 * o) := by
  rw [show (8 : Nat) = 2 ^ 3 from rfl, ← pow_mul]

theorem hilbert_index_to_3d_eq (o index : Nat) (h : index < 2 ^ (3 * o)) :
    hilbert_index_to_3d o index =
      .ok (mortonDec 1 o index, mortonDec 2 o index, mortonDec 4 o index) := by
  unfold hilbert_index_to_3d
  rw [if_neg (by omega)]
  rw [hilbertDecodeLoop_spec]
  simp

theorem coords_3d_to_hilbert_index_eq (o x y z : Nat)
    (hx : x < 2 ^ o) (hy : y < 2 ^ o) (hz : z < 2 ^ o) :
    coords_3d_to_hilbert_index o x y z = .ok (mortonEnc o x y z) := by
  unfold coords_3d_to_hilbert_index
  have h1 : 0 < (2 : Nat) ^ o := pow_pos (by norm_num) o
  rw [if_neg (by omega)]
  obtain ⟨x', y', z', hs⟩ := hilbertEncodeLoop_spec o x y z 0
  rw [hs]
  simp

theorem base_eq : BASE = 247 := alphabet_size_eq

theorem base_pos : 0 < BASE := by rw [base_eq]; norm_num

theorem chunk_le_max_payload : CHUNK_SIZE ≤ MAX_PAYLOAD_SIZE := by
  unfold CHUNK_SIZE MAX_PAYLOAD_SIZE
  norm_num

theorem validate_text_ok {text : List Nat} {maxLength : Nat}
    (h1 : text.length ≤ maxLength) (h2 : ∀ c ∈ text, [c] ∈ ALPHABET) :
    validate_text_e text maxLength = .ok () := by
  unfold validate_text_e
  rw [if_neg (by omega)]
  rw [if_pos (by simpa [List.all_eq_true] using h2)]

theorem max_safe_value_eq : max_safe_value = 2 ^ (MAX_PAYLOAD_SIZE * 8) := by
  unfold max_safe_value
  rw [← pow_mul, Nat.mul_comm]

theorem base_pow_le_max_safe {L : Nat} (h : L ≤ MAX_PAYLOAD_SIZE) :
    BASE ^ L ≤ max_safe_value := by
  calc BASE ^ L ≤ 256 ^ L := Nat.pow_le_pow_left (by rw [base_eq]; norm_num) L
    _ = 2 ^ (8 * L) := by rw [show (256 : Nat) = 2 ^ 8 from rfl, ← pow_mul]
    _ ≤ max_safe_value := by
        rw [max_safe_value_eq]
        exact Nat.pow_le_pow_right (by norm_num) (by omega)

theorem payload_fold_ok : ∀ (ds : List Nat) (a : Nat), (∀ d ∈ ds, d < BASE) →
    (a + 1) * BASE ^ ds.length ≤ max_safe_value + 1 →
    foldlME (fun value idx => if value * BASE + idx > max_safe_value then .error .overflow
      else .ok (value * BASE + idx)) a ds = .ok (ds.foldl (fun v d => v * BASE + d) a) := by
  intro ds
  induction ds with
  | nil => intro a _ _; rfl
  | cons d t ih =>
    intro a hd hbound
    have hdB : d < BASE := hd d (by simp)
    have hpow1 : 1 ≤ BASE ^ t.length := Nat.one_le_pow _ _ base_pos
    have hstep : a * BASE + d + 1 ≤ (a + 1) * BASE := by
      have : a * BASE + d + 1 ≤ a * BASE + BASE := by omega
      calc a * BASE + d + 1 ≤ a * BASE + BASE := this
        _ = (a + 1) * BASE := by ring
    have hnext : (a * BASE + d + 1) * BASE ^ t.length ≤ max_safe_value + 1 := by
      calc (a * BASE + d + 1) * BASE ^ t.length
          ≤ (a + 1) * BASE * BASE ^ t.length := Nat.mul_le_mul_right _ hstep
        _ = (a + 1) * BASE ^ (d :: t).length := by
            rw [List.length_cons, Nat.pow_succ]; ring
        _ ≤ max_safe_value + 1 := hbound
    have hguard : ¬ a * BASE + d > max_safe_value := by
      have h1 : a * BASE + d + 1 ≤ (a * BASE + d + 1) * BASE ^ t.length :=
        Nat.le_mul_of_pos_right _ hpow1
      omega
    show foldlME _ a (d :: t) = _
    unfold foldlME
    rw [if_neg hguard]
    exact ih (a * BASE + d) (fun x hx => hd x (by simp [hx])) hnext

theorem byte_length_le {v L : Nat} (hv : v < 2 ^ (8 * L)) :
    (Nat.log2 v + 1 + 7) / 8 ≤ max 1 L := by
  by_cases hv0 : v = 0
  · subst hv0
    simp [Nat.log2]
  · have hlog : Nat.log2 v < 8 * L := (Nat.log2_lt hv0).mpr hv
    omega

theorem minBytesBE_ne_nil (v : Nat) : minBytesBE v ≠ [] := by
  unfold minBytesBE
  by_cases h : v = 0
  · simp [h]
  · rw [if_neg h]
    intro hcontra
    have hlen := natToDigitsBE_length 256 ((Nat.log2 v + 1 + 7) / 8) v
    rw [hcontra] at hlen
    simp at hlen
    omega

theorem minBytesBE_length_le {v L : Nat} (hL : 1 ≤ L) (hv : v < 2 ^ (8 * L)) :
    (minBytesBE v).length ≤ L := by
  unfold minBytesBE
  by_cases h : v = 0
  · simp [h]; omega
  · rw [if_neg h, natToDigitsBE_length]
    have := byte_length_le hv
    omega

theorem minBytesBE_fits {v : Nat} (hv0 : v ≠ 0) :
    v < 256 ^ ((Nat.log2 v + 1 + 7) / 8) := by
  have h1 : v < 2 ^ (Nat.log2 v + 1) := Nat.lt_log2_self
  have h2 : Nat.log2 v + 1 ≤ 8 * ((Nat.log2 v + 1 + 7) / 8) := by omega
  calc v < 2 ^ (Nat.log2 v + 1) := h1
    _ ≤ 2 ^ (8 * ((Nat.log2 v + 1 + 7) / 8)) := Nat.pow_le_pow_right (by norm_num) h2
    _ = 256 ^ ((Nat.log2 v + 1 + 7) / 8) := by
        rw [show (256 : Nat) = 2 ^ 8 from rfl, ← pow_mul]

theorem minBytesBE_value (v : Nat) : natFromDigitsBE 256 (minBytesBE v) = v := by
  unfold minBytesBE
  by_cases h : v = 0
  · simp [h, natFromDigitsBE]
  · rw [if_neg h, natFromDigitsBE_natToDigitsBE 256 (by norm_num)]
    exact Nat.mod_eq_of_lt (minBytesBE_fits h)

theorem minBytesBE_bytes_lt (v : Nat) : ∀ b ∈ minBytesBE v, b < 256 := by
  unfold minBytesBE
  by_cases h : v = 0
  · simp [h]
  · rw [if_neg h]
    exact natToDigitsBE_lt 256 _ v (by norm_num)

theorem base_pow_le_two_pow (L : Nat) : BASE ^ L ≤ 2 ^ (8 * L) := by
  calc BASE ^ L ≤ 256 ^ L := Nat.pow_le_pow_left (by rw [base_eq]; norm_num) L
    _ = 2 ^ (8 * L) := by rw [show (256 : Nat) = 2 ^ 8 from rfl, ← pow_mul]

theorem payload_from_indices_ok (ds : List Nat) (hd : ∀ d ∈ ds, d < BASE)
    (hlen : ds.length ≤ MAX_PAYLOAD_SIZE) :
    payload_from_indices ds = .ok (minBytesBE (natFromDigitsBE BASE ds)) := by
  have hany : ¬ ds.any (fun idx => BASE ≤ idx) = true := by
    simp only [List.any_eq_true, decide_eq_true_eq]
    rintro ⟨x, hx, hge⟩
    exact absurd (hd x hx) (by omega)
  have hbound : (0 + 1) * BASE ^ ds.length ≤ max_safe_value + 1 := by
    have := base_pow_le_max_safe hlen
    omega
  have hfold := payload_fold_ok ds 0 hd hbound
  have hvlt : natFromDigitsBE BASE ds < BASE ^ ds.length :=
    natFromDigitsBE_lt BASE ds base_pos hd
  unfold payload_from_indices
  rw [if_neg hany, hfold]
  show (if natFromDigitsBE BASE ds = 0 then Except.ok [0]
    else if (Nat.log2 (natFromDigitsBE BASE ds) + 1 + 7) / 8 > MAX_PAYLOAD_SIZE then
      Except.error Err.payloadTooLarge
    else Except.ok (natToDigitsBE 256 ((Nat.log2 (natFromDigitsBE BASE ds) + 1 + 7) / 8)
      (natFromDigitsBE BASE ds))) = Except.ok (minBytesBE (natFromDigitsBE BASE ds))
  by_cases h0 : natFromDigitsBE BASE ds = 0
  · rw [if_pos h0]
    unfold minBytesBE
    rw [if_pos h0]
  · have hv8 : natFromDigitsBE BASE ds < 2 ^ (8 * ds.length) :=
      Nat.lt_of_lt_of_le hvlt (base_pow_le_two_pow ds.length)
    have hble := byte_length_le hv8
    have hmax1 : max 1 ds.length ≤ MAX_PAYLOAD_SIZE := by
      have h1 : (1 : Nat) ≤ MAX_PAYLOAD_SIZE := by unfold MAX_PAYLOAD_SIZE; norm_num
      omega
    rw [if_neg h0, if_neg (by omega)]
    unfold minBytesBE
    rw [if_neg h0]

theorem indices_from_payload_ok (p : List Nat) (L : Nat) (hp : p ≠ [])
    (hL1 : 1 ≤ L) (hL2 : L ≤ CHUNK_SIZE) (hpl : p.length ≤ MAX_PAYLOAD_SIZE)
    (hv : natFromDigitsBE 256 p < BASE ^ L) :
    indices_from_payload p L = .ok (natToDigitsBE BASE L (natFromDigitsBE 256 p)) := by
  unfold indices_from_payload
  rw [if_neg hp, if_neg (by omega), if_neg (by omega),
    if_neg (by simp [Nat.div_eq_of_lt hv])]

theorem indices_from_payload_digits_lt {p : List Nat} {L : Nat} {ds : List Nat}
    (h : indices_from_payload p L = .ok ds) : ∀ d ∈ ds, d < BASE := by
  unfold indices_from_payload at h
  split_ifs at h
  injection h with h
  subst h
  exact natToDigitsBE_lt BASE L _ base_pos

theorem getLastD_mem_or : ∀ (l : List Nat) (d : Nat), l.getLastD d = d ∨ l.getLastD d ∈ l := by
  intro l
  induction l with
  | nil => intro d; left; rfl
  | cons a t ih =>
    intro d
    rw [List.getLastD_cons]
    rcases ih a with h | h
    · right; rw [h]; exact List.mem_cons_self a t
    · right; exact List.mem_cons_of_mem a h

theorem flatten_map_singleton : ∀ l : List Nat, (l.map (fun c => [c])).flatten = l := by
  intro l
  induction l with
  | nil => rfl
  | cons a t ih => simp [ih]

theorem digits_from_text_eq {c0 : Nat} {rest : List Nat}
    (hlen : (c0 :: rest).length ≤ CHUNK_SIZE)
    (hsup : ∀ c ∈ c0 :: rest, [c] ∈ ALPHABET) :
    digits_from_text [c0] (c0 :: rest) =
      .ok ((c0 :: rest).map (fun c => listIdx [c] (front_order_table [c0]))) := by
  have h0 : [c0] ∈ ALPHABET := hsup c0 (by simp)
  have hval := validate_text_ok hlen hsup
  have hfo : front_order_e [c0] = .ok (front_order_table [c0]) := by
    simp [front_order_e, ensure_supported_single h0]
  have hmap := mapME_ok
    (fun c => match ensure_supported_e [c] with
      | .error e => .error e
      | .ok _ => front_position_e [c0] [c])
    (fun c => listIdx [c] (front_order_table [c0]))
    (c0 :: rest)
    (fun c hc => by
      have hcA := hsup c hc
      simp [ensure_supported_single hcA, front_position_single h0 hcA])
  unfold digits_from_text
  rw [if_neg (by simp), hval, hfo, hmap]

theorem digits_lt_base {c0 : Nat} {rest : List Nat}
    (hsup : ∀ c ∈ c0 :: rest, [c] ∈ ALPHABET) :
    ∀ d ∈ (c0 :: rest).map (fun c => listIdx [c] (front_order_table [c0])), d < BASE := by
  intro d hd
  rw [List.mem_map] at hd
  obtain ⟨c, hc, hdc⟩ := hd
  subst hdc
  exact listIdx_front_order_lt (hsup c0 (by simp)) (hsup c hc)

theorem encode_chunk_eq {c0 : Nat} {rest : List Nat}
    (hlen : (c0 :: rest).length ≤ CHUNK_SIZE)
    (hsup : ∀ c ∈ c0 :: rest, [c] ∈ ALPHABET) :
    encode_chunk (c0 :: rest) = .ok
      ⟨listIdx [c0] ALPHABET, (c0 :: rest).length,
       minBytesBE (natFromDigitsBE BASE
         ((c0 :: rest).map (fun c => listIdx [c] (front_order_table [c0]))))⟩ := by
  have h0 : [c0] ∈ ALPHABET := hsup c0 (by simp)
  have hval := validate_text_ok hlen hsup
  have hdig := digits_from_text_eq hlen hsup
  have hdlt := digits_lt_base hsup
  have hmaplen : ((c0 :: rest).map (fun c => listIdx [c] (front_order_table [c0]))).length
      = (c0 :: rest).length := List.length_map _ _
  have hpay := payload_from_indices_ok _ hdlt
    (by rw [hmaplen]; exact Nat.le_trans hlen chunk_le_max_payload)
  have hlast : [(c0 :: rest).getLastD 0] ∈ ALPHABET := by
    rcases getLastD_mem_or (c0 :: rest) 0 with h | h
    · rw [List.getLastD_cons] at h ⊢
      rcases getLastD_mem_or rest c0 with h2 | h2
      · rw [h2]; exact h0
      · exact hsup _ (List.mem_cons_of_mem c0 h2)
    · exact hsup _ h
  have hprops : get_properties_e [(c0 :: rest).getLastD 0] = .ok () := by
    unfold get_properties_e
    exact ensure_supported_single hlast
  have hfid : get_front_id_e [c0] = .ok (listIdx [c0] ALPHABET) := by
    unfold get_front_id_e
    rw [ensure_supported_single h0]
  have hvlt : natFromDigitsBE BASE
      ((c0 :: rest).map (fun c => listIdx [c] (front_order_table [c0])))
      < BASE ^ (c0 :: rest).length := by
    rw [← hmaplen]
    exact natFromDigitsBE_lt BASE _ base_pos hdlt
  have hv8 : natFromDigitsBE BASE
      ((c0 :: rest).map (fun c => listIdx [c] (front_order_table [c0])))
      < 2 ^ (8 * (c0 :: rest).length) :=
    Nat.lt_of_lt_of_le hvlt (base_pow_le_two_pow _)
  have hpaylen : (minBytesBE (natFromDigitsBE BASE
      ((c0 :: rest).map (fun c => listIdx [c] (front_order_table [c0]))))).length
      ≤ (c0 :: rest).length :=
    minBytesBE_length_le (by simp) hv8
  have hmk : mkDotRecord (listIdx [c0] ALPHABET) (c0 :: rest).length
      (minBytesBE (natFromDigitsBE BASE
        ((c0 :: rest).map (fun c => listIdx [c] (front_order_table [c0]))))) = .ok
      ⟨listIdx [c0] ALPHABET, (c0 :: rest).length,
       minBytesBE (natFromDigitsBE BASE
         ((c0 :: rest).map (fun c => listIdx [c] (front_order_table [c0]))))⟩ := by
    have hidx : listIdx [c0] ALPHABET < ALPHABET_SIZE := listIdx_lt_length h0
    have hlen1 : (c0 :: rest).length ≠ 0 := by simp
    have hmaxp := Nat.le_trans hlen chunk_le_max_payload
    unfold mkDotRecord
    rw [if_neg (by omega), if_neg (by push_neg; exact ⟨hlen1, Nat.not_lt.mp (by omega)⟩),
      if_neg (by omega)]
  simp only [encode_chunk]
  rw [if_neg (Nat.not_lt.mpr hlen)]
  simp only [hval, hdig, hpay, hprops, hfid, hmk]

theorem map_getD_listIdx (table : List (List Nat)) :
    ∀ l : List Nat, (∀ c ∈ l, [c] ∈ table) →
      (l.map (fun c => listIdx [c] table)).map (fun d => table.getD d [])
        = l.map (fun c => [c]) := by
  intro l
  induction l with
  | nil => intro _; rfl
  | cons a t ih =>
    intro h
    simp only [List.map_cons]
    rw [getD_listIdx (h a (by simp)), ih (fun c hc => h c (by simp [hc]))]

theorem decode_encode_chunk {c0 : Nat} {rest : List Nat}
    (hlen : (c0 :: rest).length ≤ CHUNK_SIZE)
    (hsup : ∀ c ∈ c0 :: rest, [c] ∈ ALPHABET) :
    decode_chunk ⟨listIdx [c0] ALPHABET, (c0 :: rest).length,
      minBytesBE (natFromDigitsBE BASE
        ((c0 :: rest).map (fun c => listIdx [c] (front_order_table [c0]))))⟩
      = .ok (c0 :: rest) := by
  have h0 : [c0] ∈ ALPHABET := hsup c0 (by simp)
  have hidx : listIdx [c0] ALPHABET < ALPHABET_SIZE := listIdx_lt_length h0
  have hfront : ALPHABET.getD (listIdx [c0] ALPHABET) [] = [c0] := getD_listIdx h0
  have hfo : front_order_e [c0] = .ok (front_order_table [c0]) := by
    simp [front_order_e, ensure_supported_single h0]
  have hdlt := digits_lt_base hsup
  have hmaplen : ((c0 :: rest).map (fun c => listIdx [c] (front_order_table [c0]))).length
      = (c0 :: rest).length := List.length_map _ _
  have hvlt : natFromDigitsBE BASE
      ((c0 :: rest).map (fun c => listIdx [c] (front_order_table [c0])))
      < BASE ^ (c0 :: rest).length := by
    rw [← hmaplen]
    exact natFromDigitsBE_lt BASE _ base_pos hdlt
  have hv8 : natFromDigitsBE BASE
      ((c0 :: rest).map (fun c => listIdx [c] (front_order_table [c0])))
      < 2 ^ (8 * (c0 :: rest).length) :=
    Nat.lt_of_lt_of_le hvlt (base_pow_le_two_pow _)
  have hfromp : natFromDigitsBE 256 (minBytesBE (natFromDigitsBE BASE
      ((c0 :: rest).map (fun c => listIdx [c] (front_order_table [c0])))))
      = natFromDigitsBE BASE ((c0 :: rest).map (fun c => listIdx [c] (front_order_table [c0]))) :=
    minBytesBE_value _
  have hip : indices_from_payload
      (minBytesBE (natFromDigitsBE BASE
        ((c0 :: rest).map (fun c => listIdx [c] (front_order_table [c0])))))
      (c0 :: rest).length
      = .ok ((c0 :: rest).map (fun c => listIdx [c] (front_order_table [c0]))) := by
    rw [indices_from_payload_ok _ _ (minBytesBE_ne_nil _) (by simp)
      hlen
      (Nat.le_trans (minBytesBE_length_le (by simp) hv8) (Nat.le_trans hlen chunk_le_max_payload))
      (by rw [hfromp]; exact hvlt)]
    rw [hfromp, ← hmaplen,
      natToDigitsBE_natFromDigitsBE BASE base_pos _ hdlt]
  have hordlen : (front_order_table [c0]).length = ALPHABET_SIZE := front_order_table_length h0
  have hmapm := mapME_ok
    (fun digit => if digit ≥ (front_order_table [c0]).length then .error Err.digitOutsideFrontOrder
      else .ok ((front_order_table [c0]).getD digit []))
    (fun digit => (front_order_table [c0]).getD digit [])
    ((c0 :: rest).map (fun c => listIdx [c] (front_order_table [c0])))
    (fun d hd => by
      have hdB : d < BASE := hdlt d hd
      show (if d ≥ (front_order_table [c0]).length then Except.error Err.digitOutsideFrontOrder
        else Except.ok ((front_order_table [c0]).getD d []))
        = Except.ok ((front_order_table [c0]).getD d [])
      rw [if_neg (by rw [hordlen]; exact Nat.not_le.mpr hdB)])
  have hmapmap : ((c0 :: rest).map (fun c => listIdx [c] (front_order_table [c0]))).map
      (fun digit => (front_order_table [c0]).getD digit [])
      = (c0 :: rest).map (fun c => [c]) :=
    map_getD_listIdx (front_order_table [c0]) (c0 :: rest)
      (fun c hc => (mem_front_order_table h0 [c]).mpr (hsup c hc))
  unfold decode_chunk
  rw [if_neg (Nat.not_le.mpr hidx)]
  simp only [hfront, hfo, hip, hmapm, hmapmap, flatten_map_singleton]

theorem encode_chunk_optimized_eq (quatBytes : Nat → List Nat)
    (hq : ∀ c, (quatBytes c).length = 6) {level : Nat} (hlev : level ≤ 3)
    {c0 : Nat} {rest : List Nat} (hlen : (c0 :: rest).length ≤ CHUNK_SIZE)
    (hsup : ∀ c ∈ c0 :: rest, [c] ∈ ALPHABET) :
    encode_chunk_optimized quatBytes level (c0 :: rest) = .ok
      ⟨listIdx [c0] ALPHABET, (c0 :: rest).length, 0,
       (if level = 3 then quatBytes ((c0 :: rest).getLastD 0) else List.replicate 6 0),
       minBytesBE (natFromDigitsBE BASE
         ((c0 :: rest).map (fun c => listIdx [c] (front_order_table [c0]))))⟩ := by
  have h0 : [c0] ∈ ALPHABET := hsup c0 (by simp)
  have hidx : listIdx [c0] ALPHABET < ALPHABET_SIZE := listIdx_lt_length h0
  have hval := validate_text_ok hlen hsup
  have hdig := digits_from_text_eq hlen hsup
  have hdlt := digits_lt_base hsup
  have hmaplen : ((c0 :: rest).map (fun c => listIdx [c] (front_order_table [c0]))).length
      = (c0 :: rest).length := List.length_map _ _
  have hpay := payload_from_indices_ok _ hdlt
    (by rw [hmaplen]; exact Nat.le_trans hlen chunk_le_max_payload)
  have hlen1 : (c0 :: rest).length ≠ 0 := by simp
  have hlast : [(c0 :: rest).getLastD 0] ∈ ALPHABET := by
    rcases getLastD_mem_or (c0 :: rest) 0 with h | h
    · rw [List.getLastD_cons] at h ⊢
      rcases getLastD_mem_or rest c0 with h2 | h2
      · rw [h2]; exact h0
      · exact hsup _ (List.mem_cons_of_mem c0 h2)
    · exact hsup _ h
  simp only [encode_chunk_optimized]
  rw [if_neg (by simp : ¬ (c0 :: rest) = [])]
  rw [if_neg (Nat.not_lt.mpr hlen)]
  rw [show (c0 :: rest).headD 0 = c0 from rfl]
  rw [if_pos h0]
  simp only [hval]
  by_cases hl0 : level = 0
  · subst hl0
    rw [if_pos rfl]
    simp only [encode_chunk_eq hlen hsup]
    show mkOptimizedDotRecord (listIdx [c0] ALPHABET) (c0 :: rest).length 0
      (List.replicate 6 0) (minBytesBE (natFromDigitsBE BASE
        ((c0 :: rest).map (fun c => listIdx [c] (front_order_table [c0]))))) = _
    unfold mkOptimizedDotRecord
    rw [if_neg (by omega),
      if_neg (by push_neg; exact ⟨hlen1, Nat.not_lt.mp (by omega)⟩),
      if_neg (by simp), if_neg (by omega : ¬ (0 : Nat) = 3)]
  · rw [if_neg hl0]
    simp only [hdig, hpay]
    by_cases hl3 : 3 ≤ level
    · have hl3e : level = 3 := by omega
      rw [if_pos hl3]
      have hprops : get_properties_e [(c0 :: rest).getLastD 0] = .ok () := by
        unfold get_properties_e
        exact ensure_supported_single hlast
      simp only [hprops]
      unfold mkOptimizedDotRecord
      rw [if_neg (by omega),
        if_neg (by push_neg; exact ⟨hlen1, Nat.not_lt.mp (by omega)⟩),
        if_neg (by rw [hq]; omega), if_pos hl3e]
    · rw [if_neg hl3]
      unfold mkOptimizedDotRecord
      rw [if_neg (by omega),
        if_neg (by push_neg; exact ⟨hlen1, Nat.not_lt.mp (by omega)⟩),
        if_neg (by simp), if_neg (by omega : ¬ level = 3)]

theorem minBytesBE_minimal {v : Nat} (hv : v ≠ 0) :
    256 ^ ((minBytesBE v).length - 1) ≤ v ∧ v < 256 ^ (minBytesBE v).length := by
  unfold minBytesBE
  rw [if_neg hv, natToDigitsBE_length]
  constructor
  · have hself : 2 ^ Nat.log2 v ≤ v := Nat.log2_self_le hv
    have harith : 8 * ((Nat.log2 v + 1 + 7) / 8 - 1) ≤ Nat.log2 v := by omega
    calc 256 ^ ((Nat.log2 v + 1 + 7) / 8 - 1)
        = 2 ^ (8 * ((Nat.log2 v + 1 + 7) / 8 - 1)) := by
          rw [show (256 : Nat) = 2 ^ 8 from rfl, ← pow_mul]
      _ ≤ 2 ^ Nat.log2 v := Nat.pow_le_pow_right (by norm_num) harith
      _ ≤ v := hself
  · exact minBytesBE_fits hv

theorem foldlME_cons_eq (g : Nat → Nat → Except Err Nat) (a d : Nat) (t : List Nat) :
    foldlME g a (d :: t) = match g a d with
      | .error e => .error e
      | .ok a' => foldlME g a' t := rfl

theorem foldlME_cons_err (g : Nat → Nat → Except Err Nat) (a d : Nat) (e : Err) (t : List Nat)
    (h : g a d = .error e) : foldlME g a (d :: t) = .error e := by
  rw [foldlME_cons_eq, h]

theorem foldlME_cons_ok (g : Nat → Nat → Except Err Nat) (a d b : Nat) (t : List Nat)
    (h : g a d = .ok b) : foldlME g a (d :: t) = foldlME g b t := by
  rw [foldlME_cons_eq, h]

theorem c3_fold_err : ∀ (n : Nat) (a : Nat), a ≤ max_safe_value →
    max_safe_value + 2 ≤ (a + 1) * BASE ^ n →
    foldlME (fun value idx => if value * BASE + idx > max_safe_value then .error .overflow
      else .ok (value * BASE + idx)) a (List.replicate n 246) = .error .overflow := by
  intro n
  induction n with
  | zero =>
    intro a ha hbig
    rw [Nat.pow_zero, Nat.mul_one] at hbig
    exfalso
    omega
  | succ n ih =>
    intro a ha hbig
    rw [List.replicate_succ]
    by_cases hguard : a * BASE + 246 > max_safe_value
    · exact foldlME_cons_err _ a 246 .overflow _ (if_pos hguard)
    · rw [foldlME_cons_ok _ a 246 (a * BASE + 246) _ (if_neg hguard)]
      refine ih (a * BASE + 246) (by omega) ?_
      have hb : BASE = 247 := base_eq
      have hexp : (a * BASE + 246 + 1) * BASE ^ n = (a + 1) * BASE ^ (n + 1) := by
        rw [hb, Nat.pow_succ]
        ring
      rw [hexp]
      exact hbig

theorem max_safe_value_pow24 : max_safe_value = ((2 : Nat) ^ 5) ^ 16777216 := by
  unfold max_safe_value MAX_PAYLOAD_SIZE
  rw [← Nat.pow_mul, ← Nat.pow_mul,
    show (8 * (10 * 1024 * 1024) : Nat) = 5 * 16777216 from by norm_num]

theorem two_pow_six_lt_base_pow : ((2 : Nat) ^ 6) ^ 16777216 < BASE ^ 16777216 :=
  Nat.pow_lt_pow_left (by rw [base_eq]; norm_num) (by norm_num)

theorem two_pow_five_double_le : ((2 : Nat) ^ 5) ^ 16777216 * 2 ≤ ((2 : Nat) ^ 6) ^ 16777216 := by
  calc ((2 : Nat) ^ 5) ^ 16777216 * 2
      ≤ ((2 : Nat) ^ 5) ^ 16777216 * 2 ^ 16777216 := by
        refine Nat.mul_le_mul (Nat.le_refl _) ?_
        calc (2 : Nat) = 2 ^ 1 := (Nat.pow_one 2).symm
          _ ≤ 2 ^ 16777216 := Nat.pow_le_pow_right (by norm_num) (by norm_num)
    _ = ((2 : Nat) ^ 5 * 2) ^ 16777216 := (Nat.mul_pow _ _ _).symm
    _ = ((2 : Nat) ^ 6) ^ 16777216 := by
        rw [show ((2 : Nat) ^ 5 * 2) = 2 ^ 6 from by norm_num]

theorem c3_overflow_trigger :
    payload_from_indices (List.replicate 16777216 246) = .error .overflow := by
  have hany : ¬ (List.replicate 16777216 246).any (fun idx => BASE ≤ idx) = true := by
    simp only [List.any_eq_true, decide_eq_true_eq]
    rintro ⟨x, hx, hge⟩
    rw [List.mem_replicate] at hx
    rw [hx.2, base_eq] at hge
    omega
  have h32 : (32 : Nat) ≤ ((2 : Nat) ^ 5) ^ 16777216 := by
    calc (32 : Nat) = ((2 : Nat) ^ 5) ^ 1 := by norm_num
      _ ≤ ((2 : Nat) ^ 5) ^ 16777216 := Nat.pow_le_pow_right (by norm_num) (by norm_num)
  have hchain := two_pow_five_double_le
  have hlt := two_pow_six_lt_base_pow
  have hbig : max_safe_value + 2 ≤ (0 + 1) * BASE ^ 16777216 := by
    rw [Nat.zero_add, Nat.one_mul, max_safe_value_pow24]
    generalize hT : BASE ^ 16777216 = T at hlt ⊢
    generalize hM : ((2 : Nat) ^ 5) ^ 16777216 = M at hchain h32 ⊢
    generalize hS : ((2 : Nat) ^ 6) ^ 16777216 = S at hchain hlt
    clear hT hM hS
    omega
  have herr := c3_fold_err 16777216 0 (Nat.zero_le _) hbig
  unfold payload_from_indices
  rw [if_neg hany]
  simp only [herr]

theorem ensure_supported_e_ok {s : List Nat} (h : ensure_supported_e s = .ok ()) :
    s ∈ ALPHABET ∧ s.length = 1 := by
  unfold ensure_supported_e at h
  by_cases h1 : s.length ≠ 1
  · rw [if_pos h1] at h; simp at h
  · rw [if_neg h1] at h
    by_cases h2 : s ∈ ALPHABET
    · exact ⟨h2, by omega⟩
    · rw [if_neg h2] at h; simp at h

theorem ensure_supported_e_error {s : List Nat} {e : Err}
    (h : ensure_supported_e s = .error e) :
    e = .notSingleChar ∨ e = .unsupportedChar := by
  unfold ensure_supported_e at h
  by_cases h1 : s.length ≠ 1
  · rw [if_pos h1] at h; injection h with h; exact Or.inl h.symm
  · rw [if_neg h1] at h
    by_cases h2 : s ∈ ALPHABET
    · rw [if_pos h2] at h; simp at h
    · rw [if_neg h2] at h; injection h with h; exact Or.inr h.symm

theorem front_order_e_ok {f : List Nat} {order : List (List Nat)}
    (h : front_order_e f = .ok order) :
    order = front_order_table f ∧ f ∈ ALPHABET := by
  unfold front_order_e at h
  cases hes : ensure_supported_e f with
  | error e => rw [hes] at h; simp at h
  | ok u =>
    cases u
    rw [hes] at h
    injection h with h
    exact ⟨h.symm, (ensure_supported_e_ok hes).1⟩

theorem front_order_e_error {f : List Nat} {e : Err}
    (h : front_order_e f = .error e) :
    e = .notSingleChar ∨ e = .unsupportedChar := by
  unfold front_order_e at h
  cases hes : ensure_supported_e f with
  | error e2 =>
    rw [hes] at h
    injection h with h
    exact h ▸ ensure_supported_e_error hes
  | ok u => cases u; rw [hes] at h; simp at h

theorem indices_from_payload_error {p : List Nat} {L : Nat} {e : Err}
    (h : indices_from_payload p L = .error e) :
    e = .emptyPayload ∨ e = .invalidLength ∨ e = .payloadTooLarge ∨ e = .excessData := by
  unfold indices_from_payload at h
  by_cases h1 : p = []
  · rw [if_pos h1] at h; injection h with h; exact Or.inl h.symm
  · rw [if_neg h1] at h
    by_cases h2 : L = 0 ∨ L > CHUNK_SIZE
    · rw [if_pos h2] at h; injection h with h; exact Or.inr (Or.inl h.symm)
    · rw [if_neg h2] at h
      by_cases h3 : p.length > MAX_PAYLOAD_SIZE
      · rw [if_pos h3] at h; injection h with h
        exact Or.inr (Or.inr (Or.inl h.symm))
      · rw [if_neg h3] at h
        by_cases h4 : natFromDigitsBE 256 p / BASE ^ L ≠ 0
        · rw [if_pos h4] at h; injection h with h
          exact Or.inr (Or.inr (Or.inr h.symm))
        · rw [if_neg h4] at h; simp at h

theorem decode_chunk_ne_digit_error (r : DotRecord) :
    decode_chunk r ≠ .error .digitOutsideFrontOrder := by
  unfold decode_chunk
  by_cases h1 : r.front_index ≥ ALPHABET_SIZE
  · rw [if_pos h1]; simp
  · rw [if_neg h1]
    cases hfo : front_order_e (ALPHABET.getD r.front_index []) with
    | error e =>
      rcases front_order_e_error hfo with he | he <;> (subst he; simp)
    | ok order =>
      obtain ⟨horder, hmem⟩ := front_order_e_ok hfo
      cases hip : indices_from_payload r.payload r.length with
      | error e =>
        rcases indices_from_payload_error hip with he | he | he | he <;> (subst he; simp)
      | ok digits =>
        have hd : ∀ d ∈ digits, d < BASE := indices_from_payload_digits_lt hip
        have hlen : order.length = ALPHABET_SIZE := by
          rw [horder]; exact front_order_table_length hmem
        have hmapm := mapME_ok
          (fun digit => if digit ≥ order.length then .error Err.digitOutsideFrontOrder
            else .ok (order.getD digit []))
          (fun digit => order.getD digit []) digits
          (fun d hdd => by
            show (if d ≥ order.length then Except.error Err.digitOutsideFrontOrder
              else Except.ok (order.getD d [])) = Except.ok (order.getD d [])
            rw [if_neg (by rw [hlen]; exact Nat.not_le.mpr (hd d hdd))])
        show ¬ (match mapME (fun digit => if digit ≥ order.length then
              Except.error Err.digitOutsideFrontOrder
            else Except.ok (order.getD digit [])) digits with
          | Except.error e => Except.error e
          | Except.ok chars => Except.ok chars.flatten) = Except.error Err.digitOutsideFrontOrder
        rw [hmapm]
        simp

theorem decode_chunk_optimized_strict_eq (r : OptimizedDotRecord) :
    decode_chunk_optimized r = decode_chunk_optimized_strict r := by
  unfold decode_chunk_optimized decode_chunk_optimized_strict
  by_cases h1 : r.front_index ≥ ALPHABET_SIZE
  · rw [if_pos h1, if_pos h1]
  · rw [if_neg h1, if_neg h1]
    cases hip : indices_from_payload r.compressed_payload r.length with
    | error e => rfl
    | ok indices =>
      cases hfo : front_order_e (ALPHABET.getD r.front_index []) with
      | error e => rfl
      | ok order =>
        obtain ⟨horder, hmem⟩ := front_order_e_ok hfo
        have hd : ∀ d ∈ indices, d < BASE := indices_from_payload_digits_lt hip
        have hlen : order.length = ALPHABET_SIZE := by
          rw [horder]; exact front_order_table_length hmem
        have hmapm := mapME_ok
          (fun idx => if idx < order.length then .ok (order.getD idx [])
            else .error Err.digitOutsideFrontOrder)
          (fun idx => order.getD idx []) indices
          (fun d hdd => by
            show (if d < order.length then Except.ok (order.getD d [])
              else Except.error Err.digitOutsideFrontOrder) = Except.ok (order.getD d [])
            rw [if_pos (by rw [hlen]; exact hd d hdd)])
        have hmap : indices.map (fun idx => if idx < order.length then order.getD idx [] else [0])
            = indices.map (fun idx => order.getD idx []) :=
          List.map_congr_left (fun d hdd => by
            show (if d < order.length then order.getD d [] else [0]) = order.getD d []
            rw [if_pos (by rw [hlen]; exact hd d hdd)])
        show Except.ok ((indices.map (fun idx =>
            if idx < order.length then order.getD idx [] else [0])).flatten)
          = (match mapME (fun idx => if idx < order.length then Except.ok (order.getD idx [])
              else Except.error Err.digitOutsideFrontOrder) indices with
            | Except.error e => Except.error e
            | Except.ok chars => Except.ok chars.flatten)
        rw [hmapm, hmap]

theorem encode_chunk_optimized_take (quatBytes : Nat → List Nat) (level : Nat)
    (text : List Nat) (h : text.length > CHUNK_SIZE) :
    encode_chunk_optimized quatBytes level text
      = encode_chunk_optimized quatBytes level (text.take CHUNK_SIZE) := by
  have hc : 0 < CHUNK_SIZE := by unfold CHUNK_SIZE; norm_num
  have hne : text ≠ [] := by
    intro hnil
    rw [hnil] at h
    simp at h
  have htlen : (text.take CHUNK_SIZE).length = CHUNK_SIZE := by
    rw [List.length_take]
    omega
  have htake_ne : text.take CHUNK_SIZE ≠ [] := by
    intro hnil
    rw [hnil] at htlen
    simp at htlen
    omega
  simp only [encode_chunk_optimized]
  rw [if_neg hne, if_neg htake_ne, if_pos h,
    if_neg (by rw [htlen]; omega : ¬ (text.take CHUNK_SIZE).length > CHUNK_SIZE)]

/-- Claim C1: for every text over the supported alphabet with
1 ≤ length ≤ CHUNK_SIZE (500), decoding the encoded chunk returns
exactly the original text. -/
theorem chunk_roundtrip (text : List Nat) (h1 : text ≠ [])
    (h2 : text.length ≤ CHUNK_SIZE) (h3 : ∀ c ∈ text, [c] ∈ ALPHABET) :
    ∃ r : DotRecord, encode_chunk text = .ok r ∧ decode_chunk r = .ok text := by
  obtain ⟨c0, rest, rfl⟩ := List.exists_cons_of_ne_nil h1
  exact ⟨_, encode_chunk_eq h2 h3, decode_encode_chunk h2 h3⟩

set_option maxRecDepth 8000 in
/-- Witness for C1 at the text Apple (code points 65 112 112 108 101). -/
theorem chunk_roundtrip_witness :
    ∃ r : DotRecord, encode_chunk [65, 112, 112, 108, 101] = .ok r ∧
      decode_chunk r = .ok [65, 112, 112, 108, 101] :=
  chunk_roundtrip [65, 112, 112, 108, 101] (by decide) (by decide) (by decide)

set_option maxRecDepth 8000 in
/-- Claim C2 (code bug): the alphabet entry at index 244 is the
two-character string comma-space produced by the `"""` literal of
alphabet.py line 33, and `ensure_supported`, `front_order` and
`front_position` all raise for this alphabet member instead of
succeeding, because it is not a single character. -/
theorem alphabet_comma_space_bug :
    [44, 32] ∈ ALPHABET ∧
    ensure_supported_e [44, 32] = .error .notSingleChar ∧
    front_order_e [44, 32] = .error .notSingleChar ∧
    front_position_e [65] [44, 32] = .error .notSingleChar ∧
    front_position_e [44, 32] [65] = .error .notSingleChar := by
  exact ⟨by decide, rfl, rfl, rfl, rfl⟩

/-- Claim C3 counterexample: a long enough digit list trips the overflow
guard of `_payload_from_indices`, which raises instead of returning the
minimal big-endian byte string, so the claim does not hold for every
list of in-range digits. -/
theorem payload_overflow_counterexample :
    payload_from_indices (List.replicate 16777216 246) = .error .overflow :=
  c3_overflow_trigger

/-- Claim C3 (amended): for every list of at most MAX_PAYLOAD_SIZE
digits each in [0, ALPHABET_SIZE), `_payload_from_indices` returns the
minimal big-endian byte string of the base-ALPHABET_SIZE value of the
digits: the bytes are genuine bytes whose big-endian value is the digit
value, the result is never empty, a zero value yields exactly one zero
byte, and a nonzero value fits in the returned length but not in one
byte less. -/
theorem payload_minimal_bytes (indices : List Nat)
    (hd : ∀ d ∈ indices, d < ALPHABET_SIZE) (hlen : indices.length ≤ MAX_PAYLOAD_SIZE) :
    ∃ bs, payload_from_indices indices = .ok bs ∧ bs ≠ [] ∧ (∀ b ∈ bs, b < 256) ∧
      natFromDigitsBE 256 bs = natFromDigitsBE BASE indices ∧
      (natFromDigitsBE BASE indices = 0 → bs = [0]) ∧
      (natFromDigitsBE BASE indices ≠ 0 →
        256 ^ (bs.length - 1) ≤ natFromDigitsBE BASE indices ∧
        natFromDigitsBE BASE indices < 256 ^ bs.length) := by
  refine ⟨minBytesBE (natFromDigitsBE BASE indices),
    payload_from_indices_ok indices hd hlen, minBytesBE_ne_nil _,
    minBytesBE_bytes_lt _, minBytesBE_value _, ?_, ?_⟩
  · intro h0
    unfold minBytesBE
    rw [if_pos h0]
  · intro h0
    exact minBytesBE_minimal h0

set_option maxRecDepth 8000 in
/-- Witness for the amended C3 at the digit list [1, 2]. -/
theorem payload_minimal_bytes_witness :
    ∃ bs, payload_from_indices [1, 2] = .ok bs ∧ bs ≠ [] ∧ (∀ b ∈ bs, b < 256) ∧
      natFromDigitsBE 256 bs = natFromDigitsBE BASE [1, 2] ∧
      (natFromDigitsBE BASE [1, 2] = 0 → bs = [0]) ∧
      (natFromDigitsBE BASE [1, 2] ≠ 0 →
        256 ^ (bs.length - 1) ≤ natFromDigitsBE BASE [1, 2] ∧
        natFromDigitsBE BASE [1, 2] < 256 ^ bs.length) :=
  payload_minimal_bytes [1, 2] (by decide) (by decide)

/-- Claim C4: `_indices_from_payload` returns the L most-significant-first
base-ALPHABET_SIZE digits of the big-endian value V of the payload when
V < ALPHABET_SIZE ^ L, raises Corruption (excess data) when
V ≥ ALPHABET_SIZE ^ L, and raises for an empty payload or a length
outside [1, CHUNK_SIZE]. -/
theorem indices_from_payload_spec :
    (∀ (p : List Nat) (L : Nat), p ≠ [] → p.length ≤ MAX_PAYLOAD_SIZE →
      1 ≤ L → L ≤ CHUNK_SIZE → (∀ b ∈ p, b < 256) →
      (natFromDigitsBE 256 p < BASE ^ L →
        ∃ ds, indices_from_payload p L = .ok ds ∧ ds.length = L ∧
          natFromDigitsBE BASE ds = natFromDigitsBE 256 p ∧ ∀ d ∈ ds, d < BASE) ∧
      (natFromDigitsBE 256 p ≥ BASE ^ L →
        indices_from_payload p L = .error .excessData)) ∧
    (∀ L, indices_from_payload [] L = .error .emptyPayload) ∧
    (∀ (p : List Nat) (L : Nat), p ≠ [] → (L = 0 ∨ L > CHUNK_SIZE) →
      indices_from_payload p L = .error .invalidLength) := by
  refine ⟨?_, ?_, ?_⟩
  · intro p L hp hpl hL1 hL2 hbytes
    constructor
    · intro hv
      refine ⟨natToDigitsBE BASE L (natFromDigitsBE 256 p),
        indices_from_payload_ok p L hp hL1 hL2 hpl hv,
        natToDigitsBE_length _ _ _, ?_, natToDigitsBE_lt BASE L _ base_pos⟩
      rw [natFromDigitsBE_natToDigitsBE BASE base_pos]
      exact Nat.mod_eq_of_lt hv
    · intro hv
      have hdiv : 1 ≤ natFromDigitsBE 256 p / BASE ^ L :=
        (Nat.one_le_div_iff (pow_pos base_pos L)).mpr hv
      unfold indices_from_payload
      rw [if_neg hp, if_neg (by omega), if_neg (by omega), if_pos (by omega)]
  · intro L
    rfl
  · intro p L hp hL
    unfold indices_from_payload
    rw [if_neg hp, if_pos hL]

set_option maxRecDepth 8000 in
/-- Witness for C4: digit extraction at payload [7] with length 1,
empty-payload rejection at length 3, and corruption detection for the
payload [1, 0] (value 256 ≥ 247) with length 1. -/
theorem indices_from_payload_spec_witness :
    (∃ ds, indices_from_payload [7] 1 = .ok ds ∧ ds.length = 1 ∧
      natFromDigitsBE BASE ds = natFromDigitsBE 256 [7] ∧ ∀ d ∈ ds, d < BASE) ∧
    indices_from_payload [] 3 = .error .emptyPayload ∧
    indices_from_payload [1, 0] 1 = .error .excessData :=
  ⟨(indices_from_payload_spec.1 [7] 1 (by decide) (by decide) (by decide) (by decide)
      (by decide)).1 (by decide),
   indices_from_payload_spec.2.1 3,
   (indices_from_payload_spec.1 [1, 0] 1 (by decide) (by decide) (by decide) (by decide)
      (by decide)).2 (by decide)⟩

/-- Claim C5: for every valid chunk text and every optimization level in
0..3, the compressed payload of the optimized record is byte-identical
to the payload of the base codec's record.  `quatBytes` abstracts the
6-byte float quaternion pipeline (see `encode_chunk_optimized`). -/
theorem optimized_payload_identical (quatBytes : Nat → List Nat)
    (hq : ∀ c, (quatBytes c).length = 6) (level : Nat) (hlev : level ≤ 3)
    (text : List Nat) (h1 : text ≠ []) (h2 : text.length ≤ CHUNK_SIZE)
    (h3 : ∀ c ∈ text, [c] ∈ ALPHABET) :
    ∃ ro rb, encode_chunk_optimized quatBytes level text = .ok ro ∧
      encode_chunk text = .ok rb ∧ ro.compressed_payload = rb.payload := by
  obtain ⟨c0, rest, rfl⟩ := List.exists_cons_of_ne_nil h1
  exact ⟨_, _, encode_chunk_optimized_eq quatBytes hq hlev h2 h3,
    encode_chunk_eq h2 h3, rfl⟩

set_option maxRecDepth 8000 in
/-- Witness for C5 at level 2 on the text Hi (code points 72 105). -/
theorem optimized_payload_identical_witness :
    ∃ ro rb, encode_chunk_optimized (fun _ => List.replicate 6 0) 2 [72, 105] = .ok ro ∧
      encode_chunk [72, 105] = .ok rb ∧ ro.compressed_payload = rb.payload :=
  optimized_payload_identical (fun _ => List.replicate 6 0) (fun _ => rfl) 2 (by decide)
    [72, 105] (by decide) (by decide) (by decide)

set_option maxRecDepth 8000 in
/-- Claim C6 (code bug): at optimization level 3 the `hilbert_index`
field of the encoded record is always the literal 0 — line 153 of
optimized_sjzip.py is never reassigned and the `HilbertCurve3D` built in
`__init__` is never invoked — while the order-8 Hilbert index the spec
derives from the last character's scaled spiral coordinates is nonzero
(for the text consisting of the single character A the scaled grid
coordinates are (120, 109, 92), whose index is 1957762). -/
theorem hilbert_index_always_zero :
    ∃ r : OptimizedDotRecord,
      encode_chunk_optimized (fun _ => List.replicate 6 0) 3 [65] = .ok r ∧
      r.hilbert_index = 0 ∧
      coords_3d_to_hilbert_index 8 120 109 92 = .ok 1957762 ∧ (1957762 : Nat) ≠ 0 :=
  ⟨_, encode_chunk_optimized_eq (fun _ => List.replicate 6 0) (fun _ => rfl)
      (by decide) (by decide) (by decide), rfl, rfl, by decide⟩

/-- Claim C7: for the order-8 curve, coords-to-index and index-to-coords
are mutually inverse over the full domain [0,255]³ and [0, 2^24). -/
theorem hilbert_roundtrip :
    (∀ x y z : Nat, x ≤ 255 → y ≤ 255 → z ≤ 255 →
      ∃ i, coords_3d_to_hilbert_index 8 x y z = .ok i ∧ i < 2 ^ 24 ∧
        hilbert_index_to_3d 8 i = .ok (x, y, z)) ∧
    (∀ i : Nat, i < 2 ^ 24 →
      ∃ x y z, hilbert_index_to_3d 8 i = .ok (x, y, z) ∧
        coords_3d_to_hilbert_index 8 x y z = .ok i) := by
  have h88 : (8 : Nat) ^ 8 = 2 ^ 24 := by norm_num
  constructor
  · intro x y z hx hy hz
    have hx' : x < 2 ^ 8 := by omega
    have hy' : y < 2 ^ 8 := by omega
    have hz' : z < 2 ^ 8 := by omega
    have henc := mortonEnc_lt 8 x y z
    refine ⟨mortonEnc 8 x y z, coords_3d_to_hilbert_index_eq 8 x y z hx' hy' hz', ?_, ?_⟩
    · rw [h88] at henc
      exact henc
    · have hdec := morton_dec_enc 8 x y z hx' hy' hz'
      rw [hilbert_index_to_3d_eq 8 _ (eight_pow_eq_two_pow 8 ▸ mortonEnc_lt 8 x y z)]
      rw [hdec.1, hdec.2.1, hdec.2.2]
  · intro i hi
    have hi' : i < 2 ^ (3 * 8) := hi
    refine ⟨mortonDec 1 8 i, mortonDec 2 8 i, mortonDec 4 8 i,
      hilbert_index_to_3d_eq 8 i hi', ?_⟩
    rw [coords_3d_to_hilbert_index_eq 8 _ _ _ (mortonDec_lt 1 8 i) (mortonDec_lt 2 8 i)
      (mortonDec_lt 4 8 i)]
    rw [morton_enc_dec 8 i (by rw [eight_pow_eq_two_pow]; exact hi')]

/-- Witness for C7 at the coordinate (3, 5, 7) and the index 12345. -/
theorem hilbert_roundtrip_witness :
    (∃ i, coords_3d_to_hilbert_index 8 3 5 7 = .ok i ∧ i < 2 ^ 24 ∧
      hilbert_index_to_3d 8 i = .ok (3, 5, 7)) ∧
    (∃ x y z, hilbert_index_to_3d 8 12345 = .ok (x, y, z) ∧
      coords_3d_to_hilbert_index 8 x y z = .ok 12345) :=
  ⟨hilbert_roundtrip.1 3 5 7 (by norm_num) (by norm_num) (by norm_num),
   hilbert_roundtrip.2 12345 (by norm_num)⟩

/-- Claim C8: encoding succeeds for every supported text of exactly
CHUNK_SIZE characters, rejects every longer text, and rejects the empty
text. -/
theorem encode_boundary :
    (∀ text : List Nat, text.length = CHUNK_SIZE → (∀ c ∈ text, [c] ∈ ALPHABET) →
      ∃ r, encode_chunk text = .ok r) ∧
    (∀ text : List Nat, text.length > CHUNK_SIZE → encode_chunk text = .error .chunkTooLong) ∧
    encode_chunk [] = .error .emptyText := by
  refine ⟨?_, ?_, rfl⟩
  · intro text hlen hsup
    obtain ⟨c0, rest, rfl⟩ := List.exists_cons_of_ne_nil
      (show text ≠ [] by
        intro hnil
        rw [hnil] at hlen
        unfold CHUNK_SIZE at hlen
        simp at hlen)
    exact ⟨_, encode_chunk_eq (le_of_eq hlen) hsup⟩
  · intro text hlen
    cases text with
    | nil => simp at hlen
    | cons c0 rest =>
      simp only [encode_chunk]
      rw [if_pos hlen]

set_option maxRecDepth 100000 in
/-- Witness for C8 at a 500-character and a 501-character text of the
NUL character (alphabet index 0). -/
theorem encode_boundary_witness :
    (∃ r, encode_chunk (List.replicate 500 0) = .ok r) ∧
    encode_chunk (List.replicate 501 0) = .error .chunkTooLong :=
  ⟨encode_boundary.1 (List.replicate 500 0) (by decide) (by decide),
   encode_boundary.2.1 (List.replicate 501 0) (by decide)⟩

/-- Claim C9: decoded digits always lie in [0, ALPHABET_SIZE), every
front-order table spans the whole alphabet, and consequently the
out-of-order digit error branch of `decode_chunk` and the
degrade-to-sentinel branch of `decode_chunk_optimized` are unreachable:
the optimized decoder is extensionally equal to its strict variant. -/
theorem decode_safety :
    (∀ (p : List Nat) (L : Nat) (ds : List Nat),
      indices_from_payload p L = .ok ds → ∀ d ∈ ds, d < ALPHABET_SIZE) ∧
    (∀ f ∈ ALPHABET, (front_order_table f).length = ALPHABET_SIZE) ∧
    (∀ r : DotRecord, decode_chunk r ≠ .error .digitOutsideFrontOrder) ∧
    (∀ r : OptimizedDotRecord, decode_chunk_optimized r = decode_chunk_optimized_strict r) :=
  ⟨fun _ _ _ h => indices_from_payload_digits_lt h,
   fun _ hf => front_order_table_length hf,
   decode_chunk_ne_digit_error,
   decode_chunk_optimized_strict_eq⟩

set_option maxRecDepth 8000 in
/-- Witness for C9: a digit bound at a concrete payload, the front-order
length for A, the no-digit-error fact and the strict equality at a
concrete record. -/
theorem decode_safety_witness :
    (0 : Nat) < ALPHABET_SIZE ∧
    (front_order_table [65]).length = ALPHABET_SIZE ∧
    decode_chunk ⟨0, 1, [0]⟩ ≠ .error .digitOutsideFrontOrder ∧
    decode_chunk_optimized ⟨0, 1, 0, List.replicate 6 0, [0]⟩
      = decode_chunk_optimized_strict ⟨0, 1, 0, List.replicate 6 0, [0]⟩ :=
  ⟨decode_safety.1 [0] 1 [0] rfl 0 (by decide),
   decode_safety.2.1 [65] (by decide),
   decode_safety.2.2.1 ⟨0, 1, [0]⟩,
   decode_safety.2.2.2 ⟨0, 1, 0, List.replicate 6 0, [0]⟩⟩

/-- Claim C10: for every supported text longer than CHUNK_SIZE, the
optimized encoder does not raise — it encodes the truncated first
CHUNK_SIZE characters and returns the same record — while the base
`encode_chunk` rejects the over-long text. -/
theorem optimized_truncation (quatBytes : Nat → List Nat)
    (hq : ∀ c, (quatBytes c).length = 6) (level : Nat) (hlev : level ≤ 3)
    (text : List Nat) (hlong : text.length > CHUNK_SIZE)
    (hsup : ∀ c ∈ text, [c] ∈ ALPHABET) :
    encode_chunk_optimized quatBytes level text
      = encode_chunk_optimized quatBytes level (text.take CHUNK_SIZE) ∧
    (∃ r, encode_chunk_optimized quatBytes level text = .ok r) ∧
    encode_chunk text = .error .chunkTooLong := by
  have htake := encode_chunk_optimized_take quatBytes level text hlong
  have htlen : (text.take CHUNK_SIZE).length = CHUNK_SIZE := by
    rw [List.length_take]
    omega
  have hsup2 : ∀ c ∈ text.take CHUNK_SIZE, [c] ∈ ALPHABET :=
    fun c hc => hsup c (List.take_subset _ _ hc)
  obtain ⟨c0, rest, heq⟩ := List.exists_cons_of_ne_nil
    (show text.take CHUNK_SIZE ≠ [] by
      intro hnil
      rw [hnil] at htlen
      unfold CHUNK_SIZE at htlen
      simp at htlen)
  refine ⟨htake, ?_, ?_⟩
  · rw [htake, heq]
    exact ⟨_, encode_chunk_optimized_eq quatBytes hq hlev
      (le_of_eq (by rw [← heq, htlen])) (heq ▸ hsup2)⟩
  · cases text with
    | nil => simp at hlong
    | cons a t =>
      simp only [encode_chunk]
      rw [if_pos hlong]

set_option maxRecDepth 100000 in
/-- Witness for C10 at a 501-character text of the NUL character at
level 1. -/
theorem optimized_truncation_witness :
    encode_chunk_optimized (fun _ => List.replicate 6 0) 1 (List.replicate 501 0)
      = encode_chunk_optimized (fun _ => List.replicate 6 0) 1
          ((List.replicate 501 0).take CHUNK_SIZE) ∧
    (∃ r, encode_chunk_optimized (fun _ => List.replicate 6 0) 1 (List.replicate 501 0)
      = .ok r) ∧
    encode_chunk (List.replicate 501 0) = .error .chunkTooLong :=
  optimized_truncation (fun _ => List.replicate 6 0) (fun _ => rfl) 1 (by decide)
    (List.replicate 501 0) (by decide) (by decide)
